import Mathlib

/-!
Verification of the madis pack codec and row functions.

This development shallowly embeds the code of `src/functions/row/jpacks.py`
and `src/functions/vtable/igroup.py`.  The functions there are built on the
pack codec `lib.jlist` (`toj`, `fromj`, `elemfromj`), whose source file is
not part of the repository snapshot; those codec operations are modelled
from the specification (section 4.1 of the spec), as indicated in their doc
comments.  Machine-level notes:

* `Value`s are embedded as `JVal` with constructors for null, integer,
  text, sequence and object values.  `Real` (floating point) values are
  not embedded; none of the verified properties exercises them.
* SQLite call arguments are embedded as `Arg` (an integer or a text).
* Python exceptions are embedded as `Except Err` results.
-/

/-- A decoded pack element: null, integer, text, sequence (JSON array) or
mapping (JSON object).  Mirrors the values `json.loads` produces for the
jpacks functions (floats and booleans are not modelled). -/
inductive JVal where
  | null : JVal
  | int (n : Int) : JVal
  | str (s : String) : JVal
  | arr (xs : List JVal) : JVal
  | obj (fs : List (String × JVal)) : JVal

/-- An SQLite argument as the Python functions receive it: an integer or a
piece of text. -/
inductive Arg where
  | num (n : Int) : Arg
  | txt (s : String) : Arg
deriving DecidableEq

/-- Python exceptions raised by the embedded functions. -/
inductive Err where
  | decode : Err
  | typeError : Err
  | indexError : Err
  | execFail : Err
  | operator (op : String) (msg : String) : Err
deriving DecidableEq

/-- True for the scalar (non-sequence, non-object) values. -/
def isScalar : JVal → Bool
  | .null => true
  | .int _ => true
  | .str _ => true
  | .arr _ => false
  | .obj _ => false

/-! ### Decimal digits -/

/-- The character of a decimal digit value. -/
def digitChar (d : Nat) : Char := Char.ofNat (48 + d)

/-- Is this character a decimal digit. -/
def isDigit (c : Char) : Bool := 48 ≤ c.toNat && c.toNat ≤ 57

/-- The decimal digit values of a natural number, most significant first
(fuelled; the number itself is always enough fuel). -/
def natDigitsF : Nat → Nat → List Nat
  | 0, n => [n]
  | Nat.succ f, n => if n < 10 then [n] else natDigitsF f (n / 10) ++ [n % 10]

/-- The decimal digit values of a natural number, most significant first. -/
def natDigits (n : Nat) : List Nat := natDigitsF n n

/-- The decimal rendering of a natural number. -/
def natChars (n : Nat) : List Char := (natDigits n).map digitChar

/-- The decimal rendering of an integer, with a leading minus sign when
negative. -/
def intChars (m : Int) : List Char :=
  if m < 0 then '-' :: natChars m.natAbs else natChars m.natAbs

/-- Greedily take decimal digits from the front of a character list,
returning their values and the remaining characters. -/
def takeDigits : List Char → List Nat × List Char
  | [] => ([], [])
  | c :: cs =>
    if isDigit c then
      let (ds, r) := takeDigits cs
      ((c.toNat - 48) :: ds, r)
    else ([], c :: cs)

/-- Recombine a digit-value list into the natural number it denotes. -/
def natOfDigits (ds : List Nat) : Nat := ds.foldl (fun a d => 10 * a + d) 0

/-! ### JSON string escaping -/

/-- The character of a hexadecimal digit value. -/
def hexChar (d : Nat) : Char :=
  Char.ofNat (if d < 10 then 48 + d else 87 + d)

/-- The value of a hexadecimal digit character, if it is one. -/
def hexVal (c : Char) : Option Nat :=
  if 48 ≤ c.toNat && c.toNat ≤ 57 then some (c.toNat - 48)
  else if 97 ≤ c.toNat && c.toNat ≤ 102 then some (c.toNat - 87)
  else if 65 ≤ c.toNat && c.toNat ≤ 70 then some (c.toNat - 55)
  else none

/-- JSON string-escape a character list: quote and backslash get a
backslash escape, control characters become `\n`, `\t`, `\r` or a
four-digit `\u` escape, everything else is emitted raw (the Python
encoder is used with `ensure_ascii=False`). -/
def escChars : List Char → List Char
  | [] => []
  | c :: cs =>
    (if c = '"' then ['\\', '"']
     else if c = '\\' then ['\\', '\\']
     else if c = '\n' then ['\\', 'n']
     else if c = '\t' then ['\\', 't']
     else if c = '\r' then ['\\', 'r']
     else if c.toNat < 32 then
       ['\\', 'u', '0', '0', hexChar (c.toNat / 16), hexChar (c.toNat % 16)]
     else [c]) ++ escChars cs

/-- The character a single-letter JSON escape denotes, if any. -/
def escCode (e : Char) : Option Char :=
  if e = '"' then some '"'
  else if e = '\\' then some '\\'
  else if e = '/' then some '/'
  else if e = 'n' then some '\n'
  else if e = 't' then some '\t'
  else if e = 'r' then some '\r'
  else if e = 'b' then some (Char.ofNat 8)
  else if e = 'f' then some (Char.ofNat 12)
  else none

/-- Read four hexadecimal digits of a `\u` escape and build the character
they denote. -/
def parseHex4 : List Char → Option (Char × List Char)
  | h1 :: h2 :: h3 :: h4 :: cs =>
    match hexVal h1, hexVal h2, hexVal h3, hexVal h4 with
    | some a, some b, some x, some d =>
      some (Char.ofNat (4096 * a + 256 * b + 16 * x + d), cs)
    | _, _, _, _ => none
  | _ => none

/-- Decode one escape sequence after the backslash, returning the decoded
character and the remaining input. -/
def parseEsc : List Char → Option (Char × List Char)
  | [] => none
  | e :: cs => if e = 'u' then parseHex4 cs else (escCode e).map (fun d => (d, cs))

/-- Parse the body of a JSON string after the opening quote, returning the
decoded characters and the input following the closing quote (fuelled; one
unit per decoded character). -/
def parseStrBody : Nat → List Char → Option (List Char × List Char)
  | 0, _ => none
  | Nat.succ f, [] => none
  | Nat.succ f, c :: cs =>
    if c = '"' then some ([], cs)
    else if c = '\\' then
      match parseEsc cs with
      | some (d, cs2) => (parseStrBody f cs2).map (fun p => (d :: p.1, p.2))
      | none => none
    else if c.toNat < 32 then none
    else (parseStrBody f cs).map (fun p => (c :: p.1, p.2))

/-! ### JSON parsing

Modelled from the spec: the repository imports the pack codec from
`lib.jlist`, which is not part of the snapshot.  Decoding in the spec
classifies an argument by whether it parses as a JSON-style array, a
JSON-style scalar (number, quoted string, `null`), or not at all.  The
parser below implements that JSON subset (arrays, objects, integers,
strings, `null`); it is fuelled so that it is structurally recursive. -/

/-- JSON whitespace. -/
def wsChar (c : Char) : Bool := c = ' ' || c = '\t' || c = '\n' || c = '\r'

/-- Drop leading JSON whitespace. -/
def skipWs : List Char → List Char
  | [] => []
  | c :: cs => if wsChar c then skipWs cs else c :: cs

mutual
/-- Parse one JSON value, returning it and the remaining input. -/
def parseVal : Nat → List Char → Option (JVal × List Char)
  | 0, _ => none
  | Nat.succ fuel, cs =>
    match skipWs cs with
    | '[' :: r =>
      match skipWs r with
      | ']' :: r2 => some (.arr [], r2)
      | r2 =>
        match parseElems fuel r2 with
        | some (vs, r3) => some (.arr vs, r3)
        | none => none
    | '\x7b' :: r =>
      match skipWs r with
      | '\x7d' :: r2 => some (.obj [], r2)
      | r2 =>
        match parseFields fuel r2 with
        | some (fs, r3) => some (.obj fs, r3)
        | none => none
    | '"' :: r =>
      match parseStrBody (r.length + 1) r with
      | some (l, r2) => some (.str (String.mk l), r2)
      | none => none
    | 'n' :: 'u' :: 'l' :: 'l' :: r => some (.null, r)
    | '-' :: r =>
      match takeDigits r with
      | (d :: ds, r2) => some (.int (-(natOfDigits (d :: ds) : Int)), r2)
      | ([], _) => none
    | c :: r =>
      if isDigit c then
        match takeDigits (c :: r) with
        | (ds, r2) => some (.int (natOfDigits ds), r2)
      else none
    | [] => none

/-- Parse the comma-separated elements of a non-empty JSON array, up to and
including the closing bracket. -/
def parseElems : Nat → List Char → Option (List JVal × List Char)
  | 0, _ => none
  | Nat.succ fuel, cs =>
    match parseVal fuel cs with
    | some (v, r) =>
      match skipWs r with
      | ',' :: r2 =>
        match parseElems fuel r2 with
        | some (vs, r3) => some (v :: vs, r3)
        | none => none
      | ']' :: r2 => some ([v], r2)
      | _ => none
    | none => none

/-- Parse the comma-separated fields of a non-empty JSON object, up to and
including the closing brace. -/
def parseFields : Nat → List Char → Option (List (String × JVal) × List Char)
  | 0, _ => none
  | Nat.succ fuel, cs =>
    match skipWs cs with
    | '"' :: r =>
      match parseStrBody (r.length + 1) r with
      | some (k, r2) =>
        match skipWs r2 with
        | ':' :: r3 =>
          match parseVal fuel r3 with
          | some (v, r4) =>
            match skipWs r4 with
            | ',' :: r5 =>
              match parseFields fuel r5 with
              | some (fs, r6) => some ((String.mk k, v) :: fs, r6)
              | none => none
            | '\x7d' :: r5 => some ([(String.mk k, v)], r5)
            | _ => none
          | none => none
        | _ => none
      | none => none
    | _ => none
end

/-- Parse a complete JSON text: one value with only whitespace around it. -/
def parseTop (s : String) : Option JVal :=
  match parseVal (s.data.length + 2) s.data with
  | some (v, rest) =>
    match skipWs rest with
    | [] => some v
    | _ :: _ => none
  | none => none

/-! ### JSON rendering -/

mutual
/-- Render a value in JSON form (the form used inside arrays: text is
quoted and escaped). -/
def renderJ : JVal → List Char
  | .null => ['n', 'u', 'l', 'l']
  | .int m => intChars m
  | .str s => '"' :: escChars s.data ++ ['"']
  | .arr xs => '[' :: renderL xs ++ [']']
  | .obj fs => '\x7b' :: renderF fs ++ ['\x7d']

/-- Render the elements of an array, comma separated. -/
def renderL : List JVal → List Char
  | [] => []
  | [v] => renderJ v
  | v :: vs => renderJ v ++ ',' :: renderL vs

/-- Render the fields of an object, comma separated. -/
def renderF : List (String × JVal) → List Char
  | [] => []
  | [(k, v)] => '"' :: escChars k.data ++ '"' :: ':' :: renderJ v
  | (k, v) :: fs => '"' :: escChars k.data ++ '"' :: ':' :: renderJ v ++ ',' :: renderF fs
end

/-! ### The pack codec (`lib.jlist`) -/

/-- Modelled from the spec: `jlist.toj` (spec 4.1 `encode`), which is not
in the repository snapshot.  A sequence with exactly one scalar element is
rendered bare, as the raw textual form of the scalar; otherwise the
sequence is rendered as a JSON-style array. -/
def toj (l : List JVal) : String :=
  match l with
  | [.null] => "null"
  | [.int m] => String.mk (intChars m)
  | [.str s] => s
  | _ => String.mk (renderJ (.arr l))

/-- Does the raw text start with a structural character, `[` or a brace?
Used for the decoding failure policy: text that looks structural but fails
to parse is a decode error rather than raw text. -/
def startsStruct (s : String) : Bool :=
  match s.data with
  | [] => false
  | c :: _ => c = '[' || c = '\x7b'

/-- Modelled from the spec: flat decoding of one argument (spec 4.1
`decodeFlat`).  An argument that parses as a JSON-style array contributes
every element (one level of flattening); any other parsed JSON value
contributes itself; unparsable text contributes itself as raw text, unless
it looks structural, in which case decoding fails. -/
def fromj1 (a : Arg) : Except Err (List JVal) :=
  match a with
  | .num n => .ok [.int n]
  | .txt s =>
    match parseTop s with
    | some (.arr xs) => .ok xs
    | some v => .ok [v]
    | none => if startsStruct s then .error .decode else .ok [.str s]

/-- Modelled from the spec: `jlist.fromj` (spec 4.1 `decodeFlat`) over an
argument list, left to right, results concatenated. -/
def fromj : List Arg → Except Err (List JVal)
  | [] => .ok []
  | a :: as => do
    let xs ← fromj1 a
    let ys ← fromj as
    pure (xs ++ ys)

/-- Modelled from the spec: element-preserving decoding of one argument
(spec 4.1 `decodeElem`): as `fromj1`, except an argument parsing as a
JSON-style array is kept as a single sequence value. -/
def elemfromj1 (a : Arg) : Except Err (List JVal) :=
  match a with
  | .num n => .ok [.int n]
  | .txt s =>
    match parseTop s with
    | some v => .ok [v]
    | none => if startsStruct s then .error .decode else .ok [.str s]

/-- Modelled from the spec: `jlist.elemfromj` over an argument list. -/
def elemfromj : List Arg → Except Err (List JVal)
  | [] => .ok []
  | a :: as => do
    let xs ← elemfromj1 a
    let ys ← elemfromj as
    pure (xs ++ ys)

/-! ### The canonical total order on values

The spec (4.2) requires an explicit total order over heterogeneous values:
null before numbers (numeric order) before text (lexicographic) before
sequences (element-wise lexicographic); objects, which only arise from
JSON objects nested inside packs, come last.  `jset` sorts with it, and
`jdictvals`/`jdictsplit` sort key-value pairs by (value, key) with it. -/

/-- Three-way comparison of naturals. -/
def natCmp (m n : Nat) : Ordering :=
  if m < n then .lt else if m = n then .eq else .gt

/-- Three-way comparison of integers. -/
def intCmp (m n : Int) : Ordering :=
  if m < n then .lt else if m = n then .eq else .gt

/-- Three-way comparison of characters, by code point. -/
def charCmp (c d : Char) : Ordering := natCmp c.toNat d.toNat

/-- Generic lexicographic three-way comparison of lists. -/
def cmpLex (f : α → α → Ordering) : List α → List α → Ordering
  | [], [] => .eq
  | [], _ :: _ => .lt
  | _ :: _, [] => .gt
  | a :: as, b :: bs =>
    match f a b with
    | .eq => cmpLex f as bs
    | o => o

/-- Three-way comparison of text, lexicographic by code point. -/
def strCmp (s t : String) : Ordering := cmpLex charCmp s.data t.data

/-- The rank of a value's constructor in the canonical order. -/
def rank : JVal → Nat
  | .null => 0
  | .int _ => 1
  | .str _ => 2
  | .arr _ => 3
  | .obj _ => 4

mutual
/-- Comparison of two values of equal rank (same constructor); values of
unequal rank are ordered by rank in `cmpV`. -/
def cmpSame : JVal → JVal → Ordering
  | .int m, .int n => intCmp m n
  | .str s, .str t => strCmp s t
  | .arr xs, .arr ys => cmpArr xs ys
  | .obj fs, .obj gs => cmpObj fs gs
  | _, _ => .eq

/-- Lexicographic comparison of value sequences. -/
def cmpArr : List JVal → List JVal → Ordering
  | [], [] => .eq
  | [], _ :: _ => .lt
  | _ :: _, [] => .gt
  | a :: as, b :: bs =>
    match (natCmp (rank a) (rank b)).then (cmpSame a b) with
    | .eq => cmpArr as bs
    | o => o

/-- Lexicographic comparison of object field lists: key first, then
value. -/
def cmpObj : List (String × JVal) → List (String × JVal) → Ordering
  | [], [] => .eq
  | [], _ :: _ => .lt
  | _ :: _, [] => .gt
  | (k, v) :: fs, (k', v') :: gs =>
    match (strCmp k k').then ((natCmp (rank v) (rank v')).then (cmpSame v v')) with
    | .eq => cmpObj fs gs
    | o => o
end

/-- The canonical total three-way comparison on values: rank first, then
the same-rank comparison. -/
def cmpV (a b : JVal) : Ordering := (natCmp (rank a) (rank b)).then (cmpSame a b)

/-- The canonical non-strict order on values. -/
def leV (a b : JVal) : Prop := cmpV a b ≠ .gt

instance : DecidableRel leV := fun _ _ => inferInstanceAs (Decidable (_ ≠ _))

/-- Comparison of dictionary items by the (value, key) pair: primary key
the value under the canonical order, secondary the key text.  This is the
sort key `operator.itemgetter(1, 0)` used by `jdictvals`/`jdictsplit` on
`(key, value)` items. -/
def cmpItem (p q : String × JVal) : Ordering :=
  (cmpV p.2 q.2).then (strCmp p.1 q.1)

/-- Comparison of object field lists element-wise: key text first, then
value (the comparator `cmpObj` folds over). -/
def cmpPairKV (p q : String × JVal) : Ordering :=
  (strCmp p.1 q.1).then (cmpV p.2 q.2)

/-- The non-strict (value, key) order on dictionary items. -/
def leItem (p q : String × JVal) : Prop := cmpItem p q ≠ .gt

instance : DecidableRel leItem := fun _ _ => inferInstanceAs (Decidable (_ ≠ _))

/-- Remove duplicate values, keeping first occurrences (the model of
Python's `set` construction followed by a canonical sort); two values are
the same when the canonical comparison finds them equal. -/
def dedupV (l : List JVal) : List JVal :=
  l.foldl (fun acc v => if acc.any (fun w => cmpV v w == .eq) then acc else acc ++ [v]) []

/-! ### The jpacks row functions (`src/functions/row/jpacks.py`) -/

/-- `jpack(args...)`: `jlist.toj(jlist.elemfromj(*args))`. -/
def jpack (args : List Arg) : Except Err String := do
  let vs ← elemfromj args
  pure (toj vs)

/-- `jmerge(args...)`: `jlist.toj(jlist.fromj(*args))`. -/
def jmerge (args : List Arg) : Except Err String := do
  let vs ← fromj args
  pure (toj vs)

/-- `jfilterempty(args...)`: drop empty-text, empty-sequence and null
elements of the flat decoding, then re-encode. -/
def jfilterempty (args : List Arg) : Except Err String := do
  let vs ← fromj args
  pure (toj (vs.filter (fun v =>
    match v with
    | .str s => s != ""
    | .arr xs => !xs.isEmpty
    | .null => false
    | _ => true)))

/-- `jset(args...)`: `toj(sorted(set(fromj(*args))))`.  Python's `set`
raises a `TypeError` on an unhashable element, which a decoded sequence
(list) or mapping (dict) element is; scalars are hashable. -/
def jset (args : List Arg) : Except Err String := do
  let vs ← fromj args
  if vs.any (fun v => !isScalar v) then
    .error .typeError
  else
    pure (toj (List.insertionSort leV (dedupV vs)))

/-- `jsort(args...)`: `toj(sorted(fromj(*args)))`. -/
def jsort (args : List Arg) : Except Err String := do
  let vs ← fromj args
  pure (toj (List.insertionSort leV vs))

/-- Wrap each decoded element in a non-capturing regex group, left to
right; concatenating `'(?:' + x` with a non-text `x` raises a Python
`TypeError`. -/
def regexParts : List JVal → Except Err (List String)
  | [] => .ok []
  | JVal.str s :: vs => do
    let rest ← regexParts vs
    pure (("(?:" ++ s ++ ")") :: rest)
  | _ :: _ => .error Err.typeError

/-- `jmergeregexp(args...)`: wrap each flat-decoded element in a
non-capturing group and join the groups with pipes. -/
def jmergeregexp (args : List Arg) : Except Err String := do
  let vs ← fromj args
  let parts ← regexParts vs
  pure (String.intercalate "|" parts)

/-! ### Tabular adapter -/

mutual
/-- Python's `repr` of a value as it appears inside `str` of a list:
strings are single-quoted, list/dict items are separated by a comma and a
space.  Quote escaping inside nested reprs is not modelled; no verified
property exercises nested sequences here. -/
def pyRepr : JVal → List Char
  | .null => ['N', 'o', 'n', 'e']
  | .int m => intChars m
  | .str s => '\'' :: s.data ++ ['\'']
  | .arr xs => '[' :: pyReprL xs ++ [']']
  | .obj fs => '\x7b' :: pyReprP fs ++ ['\x7d']

/-- Comma-and-space separated reprs of list elements. -/
def pyReprL : List JVal → List Char
  | [] => []
  | [v] => pyRepr v
  | v :: vs => pyRepr v ++ ',' :: ' ' :: pyReprL vs

/-- Comma-and-space separated reprs of dict items. -/
def pyReprP : List (String × JVal) → List Char
  | [] => []
  | [(k, v)] => '\'' :: k.data ++ '\'' :: ':' :: ' ' :: pyRepr v
  | (k, v) :: fs => '\'' :: k.data ++ '\'' :: ':' :: ' ' :: pyRepr v ++ ',' :: ' ' :: pyReprP fs
end

/-- Python's `str` of a decoded value: text is itself, integers are
decimal, `None` prints as `None`, containers print as their repr. -/
def pyStr (v : JVal) : String :=
  match v with
  | .str s => s
  | _ => String.mk (pyRepr v)

/-- Replace every tab with four spaces (`str.replace` in `j2t`). -/
def tabEsc : List Char → List Char
  | [] => []
  | c :: cs => (if c = '\t' then [' ', ' ', ' ', ' '] else [c]) ++ tabEsc cs

/-- Join character lists with single tabs. -/
def tabJoin : List (List Char) → List Char
  | [] => []
  | [p] => p
  | p :: ps => p ++ '\t' :: tabJoin ps

/-- Split a character list at tabs. -/
def tabSplit : List Char → List (List Char)
  | [] => [[]]
  | c :: cs =>
    if c = '\t' then [] :: tabSplit cs
    else
      match tabSplit cs with
      | h :: t => (c :: h) :: t
      | [] => [[c]]

/-- `j2t(args...)`: flat-decode, render every element with Python `str`,
escape embedded tabs to four spaces, and join with tabs. -/
def j2t (args : List Arg) : Except Err String := do
  let vs ← fromj args
  pure (String.mk (tabJoin (vs.map (fun v => tabEsc (pyStr v).data))))

/-- `t2j(args...)`: split every argument's raw text at tabs and encode the
fields as text values.  `t.split` on an integer argument raises a Python
`AttributeError`-style type error. -/
def t2j (args : List Arg) : Except Err String := do
  let fields ← args.mapM (fun a =>
    match a with
    | Arg.txt s => Except.ok ((tabSplit s.data).map (fun l => JVal.str (String.mk l)))
    | Arg.num _ => Except.error Err.typeError)
  pure (toj fields.flatten)

/-! ### Dictionary functions -/

/-- Build the mapping a Python `dict` (from `json.loads`) holds: keys are
unique, later duplicate keys overwrite earlier values.  The association
list fixes one canonical order; a Python 2 `dict` iterates in an
unspecified hash order, so this list is used only where order is washed
out (sorting, key lookup) or taken up to permutation, and functions whose
output order depends on the iteration take that order as a parameter. -/
def dictOf : List (String × JVal) → List (String × JVal)
  | [] => []
  | (k, v) :: fs =>
    if (dictOf fs).any (fun p => p.1 == k) then dictOf fs
    else (k, v) :: dictOf fs

/-- Python `d[i]` under `try/except`: look a selected key up in the
mapping; a non-text key (or a missing one) yields nothing. -/
def lookupKey (d : List (String × JVal)) (a : Arg) : Option JVal :=
  match a with
  | .num _ => none
  | .txt k => List.lookup k d

/-- The last character of a text, or a placeholder space for empty text
(whose subscripting in Python raises before the comparison is reached). -/
def lastChar (s : String) : Char := s.data.getLastD ' '

/-- The object check `args[0][0]=='\x7b' and args[0][-1]=='\x7d'` applied
to nonempty text. -/
def bracedData : List Char → Bool
  | [] => false
  | c :: cs => c = '\x7b' && (c :: cs).getLastD ' ' = '\x7d'

/-- One step of the multi-argument key collection loop of `jdictkeys`:
subscripting an integer argument raises a type error, subscripting empty
text raises an index error, a braced argument must parse as an object and
contributes its keys, any other text contributes nothing.  The source
iterates the keys of a Python 2 `dict`, whose enumeration order is an
implementation artifact (hash order): that order is abstracted as the
parameter `ko`, constrained in the theorems to enumerate exactly the
mapping's keys. -/
def collectKeys1 (ko : List (String × JVal) → List String) (a : Arg) :
    Except Err (List String) :=
  match a with
  | .num _ => .error .typeError
  | .txt s =>
    match s.data with
    | [] => .error .indexError
    | c :: cs =>
      if bracedData (c :: cs) then
        match parseTop s with
        | some (.obj fs) => .ok (ko fs)
        | _ => .error .decode
      else .ok []

/-- The multi-argument key collection loop of `jdictkeys`. -/
def collectKeys (ko : List (String × JVal) → List String) :
    List Arg → Except Err (List String)
  | [] => .ok []
  | a :: as => do
    let ks ← collectKeys1 ko a
    let rest ← collectKeys ko as
    pure (ks ++ rest)

/-- `jdictkeys(args...)`: with a single argument, a number or non-braced
text yields no keys, a braced text is parsed and its keys returned; with
any other number of arguments every braced argument's keys are collected
and de-duplicated through `list(set(...))`.  The integer guard exists only
in the single-argument branch.  The source's key enumeration order (a
Python 2 `dict` iteration) and its set enumeration order are both
implementation artifacts, abstracted as the parameters `ko` and `so` and
constrained in the theorems to enumerate the right elements. -/
def jdictkeys (ko : List (String × JVal) → List String)
    (so : List String → List String) (args : List Arg) : Except Err String :=
  match args with
  | [a] =>
    match a with
    | .num _ => .ok (toj [])
    | .txt s =>
      match s.data with
      | [] => .error .indexError
      | c :: cs =>
        if bracedData (c :: cs) then
          match parseTop s with
          | some (.obj fs) => .ok (toj ((ko fs).map JVal.str))
          | _ => .error .decode
        else .ok (toj [])
  | _ => do
    let ks ← collectKeys ko args
    pure (toj ((so ks).map JVal.str))

/-- Admissible key-enumeration orders: `ko fs` lists exactly the keys the
mapping of `fs` holds, each once, in some order. -/
def keyOrderOK (ko : List (String × JVal) → List String) : Prop :=
  ∀ fs, (ko fs).Perm ((dictOf fs).map Prod.fst)

/-- Admissible set-enumeration orders: `so l` lists exactly the distinct
elements of `l`, each once, in some order. -/
def setOrderOK (so : List String → List String) : Prop :=
  ∀ l : List String, (so l).Nodup ∧ ∀ k, k ∈ so l ↔ k ∈ l

/-- One admissible key-enumeration order (the mapping's canonical one),
used to evaluate `jdictkeys` on concrete inputs. -/
def pyKeys (fs : List (String × JVal)) : List String :=
  (dictOf fs).map Prod.fst

/-- One admissible set-enumeration order (first occurrences), used to
evaluate `jdictkeys` on concrete inputs. -/
def pySet (l : List String) : List String :=
  l.dedup

/-- `jdictvals(jdict, key...)`: a number or non-braced first argument is
returned unchanged; otherwise the object is parsed and either all values
are returned sorted by the (value, key) pair, or the values of the
selected keys are returned in the given order with null for a missing
key. -/
def jdictvals (args : List Arg) : Except Err Arg :=
  match args with
  | [] => .error .indexError
  | a :: keys =>
    match a with
    | .num _ => .ok a
    | .txt s =>
      match s.data with
      | [] => .error .indexError
      | c :: cs =>
        if bracedData (c :: cs) then
          match parseTop s with
          | some (.obj fs) =>
            match keys with
            | [] =>
              .ok (.txt (toj ((List.insertionSort leItem (dictOf fs)).map Prod.snd)))
            | _ :: _ =>
              .ok (.txt (toj (keys.map (fun k => (lookupKey (dictOf fs) k).getD .null))))
          | _ => .error .decode
        else .ok a

/-! ### Streaming row producers -/

/-- One item of a produced row stream: the column-name item (the schema,
yielded first by every producer) or a data row. -/
inductive Row (σ : Type) (α : Type) where
  | schema (cols : σ) : Row σ α
  | data (cells : α) : Row σ α

/-- `jsplitv(args...)`: yield the one-column schema, then one row per
flat-decoded element, each cell the element re-encoded alone. -/
def jsplitv (args : List Arg) : Except Err (List (Row (List String) (List String))) := do
  let vs ← fromj args
  pure (.schema ["C1"] :: vs.map (fun v => .data [toj [v]]))

/-- `jsplit(args...)`: re-encode every flat-decoded element; when the
decoded sequence is empty, yield a one-column schema; then
(unconditionally) yield the `C1..Cn` schema tuple and the single row of
all re-encoded elements.  The fall-through after the empty case mirrors
the source, which has no early return there. -/
def jsplit (args : List Arg) : Except Err (List (Row (List String) (List String))) := do
  let vs ← fromj args
  let fj := vs.map (fun v => toj [v])
  let pre : List (Row (List String) (List String)) :=
    if fj.isEmpty then [.schema ["C1"]] else []
  pure (pre ++
    [.schema ((List.range fj.length).map (fun i => "C" ++ String.mk (natChars (i + 1)))),
     .data fj])

/-- `jdictsplit(jdict, key...)`: parse the first argument (an integer
argument or unparsable text raises), then either yield the (value,
key)-sorted key names and their values, or the given key names and the
corresponding values with null for a missing key.  With no selected keys a
non-object parse result has no `.items()` and raises. -/
def jdictsplit (args : List Arg) : Except Err (List (Row (List Arg) (List JVal))) :=
  match args with
  | [] => .error .indexError
  | a :: keys =>
    match a with
    | .num _ => .error .typeError
    | .txt s =>
      match parseTop s with
      | none => .error .decode
      | some d =>
        match keys with
        | [] =>
          match d with
          | .obj fs =>
            let l := List.insertionSort leItem (dictOf fs)
            .ok [.schema (l.map (fun p => Arg.txt p.1)), .data (l.map Prod.snd)]
          | _ => .error .typeError
        | _ :: _ =>
          .ok [.schema keys,
               .data (keys.map (fun k =>
                 match d with
                 | .obj fs => (lookupKey (dictOf fs) k).getD .null
                 | _ => .null))]

/-- A sub-cursor of the host data handle: introspectable column names and
the rows the query yields (spec section 6, an opaque capability). -/
structure Cursor (β : Type) where
  description : List String
  rows : List (List β)

/-- `IGroup.VTiter`: look the required `query` argument up in the named
arguments (the positional/named split `full_parse` is host glue, spec
section 1); raise the operator error naming the operator and the missing
argument when absent; otherwise open a sub-cursor on the host data handle
and yield its description first, then its rows.  A data handle on which
the query fails yields no items. -/
def VTiter (β : Type) (_largs : List Arg) (dictargs : List (String × String))
    (db : String → Option (Cursor β)) : Except Err (List (Row (List String) (List β))) :=
  match dictargs.lookup "query" with
  | none => .error (.operator "igroup" "No query argument ")
  | some q =>
    match db q with
    | none => .error .execFail
    | some c => .ok (.schema c.description :: c.rows.map .data)

/-- `IGroup.BestIndex`: constant advisory answer — no constraints used,
cost 0, no index, output claimed already ordered, estimated 1000 rows. -/
def BestIndex (_constraints : List (Nat × Nat)) (_orderbys : List (Nat × Bool)) :
    Option Nat × Nat × Option Nat × Bool × Nat :=
  (none, 0, none, true, 1000)

/-- Does a character list begin with a non-digit (or end)?  Context
condition under which greedy digit-taking stops exactly at a rendered
number's end. -/
def headDigitFree : List Char → Bool
  | [] => true
  | c :: _ => !isDigit c

/-- The bare-rendering safety condition of the round-trip law: a sequence
whose bare single-scalar rendering is re-read as written.  Only a lone
text value can be unsafe: its raw rendering may itself parse as JSON or
look structural. -/
def bareSafe : List JVal → Bool
  | [.str s] => (parseTop s).isNone && !startsStruct s
  | _ => true

/-- Which keys one `jdictkeys` argument contributes in a multi-argument
call: a braced text argument parsing as an object contributes its keys -
given only up to permutation, since the source enumerates them in an
unspecified dict order - and any other nonempty text argument contributes
none. -/
def contributes (a : Arg) (ks : List String) : Prop :=
  (∃ s fs, a = .txt s ∧ bracedData s.data = true ∧ parseTop s = some (.obj fs) ∧
    ks.Perm ((dictOf fs).map Prod.fst)) ∨
  (∃ s, a = .txt s ∧ s.data ≠ [] ∧ bracedData s.data = false ∧ ks = [])

/-! ### Digit lemmas -/

theorem digitChar_toNat {d : Nat} (h : d < 10) : (digitChar d).toNat = 48 + d := by
  interval_cases d <;> rfl

theorem isDigit_digitChar {d : Nat} (h : d < 10) : isDigit (digitChar d) = true := by
  interval_cases d <;> rfl

theorem natDigitsF_congr : ∀ f g n, n ≤ f → n ≤ g → natDigitsF f n = natDigitsF g n
  | 0, g, n, hf, _ => by
    have hn : n = 0 := Nat.le_zero.mp hf
    subst hn
    cases g with
    | zero => rfl
    | succ g => simp [natDigitsF]
  | Nat.succ f, 0, n, _, hg => by
    have hn : n = 0 := Nat.le_zero.mp hg
    subst hn
    simp [natDigitsF]
  | Nat.succ f, Nat.succ g, n, hf, hg => by
    simp only [natDigitsF]
    by_cases h : n < 10
    · simp [h]
    · simp only [if_neg h]
      rw [natDigitsF_congr f g (n / 10) (by omega) (by omega)]

theorem natDigits_lt10 : ∀ f n, n ≤ f → ∀ d ∈ natDigitsF f n, d < 10
  | 0, n, hf, d, hd => by
    have hn : n = 0 := Nat.le_zero.mp hf
    subst hn
    simp only [natDigitsF, List.mem_singleton] at hd
    omega
  | Nat.succ f, n, hf, d, hd => by
    simp only [natDigitsF] at hd
    by_cases h : n < 10
    · simp only [if_pos h, List.mem_singleton] at hd
      omega
    · simp only [if_neg h, List.mem_append, List.mem_singleton] at hd
      rcases hd with hd | hd
      · exact natDigits_lt10 f (n / 10) (by omega) d hd
      · omega

theorem natOfDigits_append_one (xs : List Nat) (d : Nat) :
    natOfDigits (xs ++ [d]) = 10 * natOfDigits xs + d := by
  simp [natOfDigits, List.foldl_append, Nat.mul_comm]

theorem natOfDigits_natDigitsF : ∀ f n, n ≤ f → natOfDigits (natDigitsF f n) = n
  | 0, n, hf => by
    have hn : n = 0 := Nat.le_zero.mp hf
    subst hn
    rfl
  | Nat.succ f, n, hf => by
    simp only [natDigitsF]
    by_cases h : n < 10
    · simp only [if_pos h]
      simp [natOfDigits]
    · simp only [if_neg h]
      rw [natOfDigits_append_one, natOfDigits_natDigitsF f (n / 10) (by omega)]
      omega

theorem natOfDigits_natDigits (n : Nat) : natOfDigits (natDigits n) = n :=
  natOfDigits_natDigitsF n n (Nat.le_refl n)

theorem natDigitsF_ne_nil : ∀ f n, natDigitsF f n ≠ []
  | 0, n => by simp [natDigitsF]
  | Nat.succ f, n => by
    simp only [natDigitsF]
    by_cases h : n < 10
    · simp [h]
    · simp [h]

theorem natChars_all_digits (n : Nat) : ∀ c ∈ natChars n, isDigit c = true := by
  intro c hc
  simp only [natChars, List.mem_map] at hc
  obtain ⟨d, hd, rfl⟩ := hc
  exact isDigit_digitChar (natDigits_lt10 n n (Nat.le_refl n) d hd)

theorem natChars_ne_nil (n : Nat) : natChars n ≠ [] := by
  simp only [natChars, ne_eq, List.map_eq_nil]
  exact natDigitsF_ne_nil n n

theorem takeDigits_stop : ∀ rest, headDigitFree rest = true → takeDigits rest = ([], rest)
  | [], _ => rfl
  | c :: cs, h => by
    simp only [headDigitFree, Bool.not_eq_true'] at h
    simp [takeDigits, h]

theorem takeDigits_run : ∀ (l rest : List Char), (∀ c ∈ l, isDigit c = true) →
    headDigitFree rest = true →
    takeDigits (l ++ rest) = (l.map (fun c => c.toNat - 48), rest)
  | [], rest, _, hr => by simpa using takeDigits_stop rest hr
  | c :: l, rest, hl, hr => by
    have hc : isDigit c = true := hl c (by simp)
    simp only [List.cons_append, takeDigits, hc, if_pos]
    rw [show l.append rest = l ++ rest from rfl,
      takeDigits_run l rest (fun x hx => hl x (by simp [hx])) hr]
    simp

theorem map_toNat_natChars (n : Nat) :
    (natChars n).map (fun c => c.toNat - 48) = natDigits n := by
  simp only [natChars, List.map_map]
  conv_rhs => rw [← List.map_id (natDigits n)]
  apply List.map_congr_left
  intro d hd
  have := natDigits_lt10 n n (Nat.le_refl n) d hd
  simp [Function.comp, digitChar_toNat this]

theorem takeDigits_natChars (n : Nat) (rest : List Char) (hr : headDigitFree rest = true) :
    takeDigits (natChars n ++ rest) = (natDigits n, rest) := by
  rw [takeDigits_run (natChars n) rest (natChars_all_digits n) hr, map_toNat_natChars]

/-! ### String escaping round trip -/

theorem hexVal_hexChar {d : Nat} (h : d < 16) : hexVal (hexChar d) = some d := by
  interval_cases d <;> rfl

theorem escChars_length_ge : ∀ l : List Char, l.length ≤ (escChars l).length
  | [] => Nat.le_refl 0
  | c :: l => by
    have ih := escChars_length_ge l
    simp only [escChars, List.length_append, List.length_cons]
    split_ifs <;> simp <;> omega

theorem parseStrBody_escChars : ∀ (f : Nat) (l rest : List Char), l.length < f →
    parseStrBody f (escChars l ++ '"' :: rest) = some (l, rest)
  | 0, _, _, h => by omega
  | Nat.succ f, [], rest, _ => by
    simp [escChars, parseStrBody]
  | Nat.succ f, c :: l, rest, h => by
    have ih := parseStrBody_escChars f l rest (by simpa using Nat.lt_of_succ_lt_succ h)
    by_cases h1 : c = '"'
    · subst h1
      simp [escChars, parseStrBody, parseEsc, escCode, ih]
    · by_cases h2 : c = '\\'
      · subst h2
        simp [escChars, parseStrBody, parseEsc, escCode, ih]
      · by_cases h3 : c = '\n'
        · subst h3
          simp [escChars, parseStrBody, parseEsc, escCode, ih]
        · by_cases h4 : c = '\t'
          · subst h4
            simp [escChars, parseStrBody, parseEsc, escCode, ih]
          · by_cases h5 : c = '\r'
            · subst h5
              simp [escChars, parseStrBody, parseEsc, escCode, ih]
            · by_cases h6 : c.toNat < 32
              · have hdiv : c.toNat / 16 < 16 := by omega
                have hmod : c.toNat % 16 < 16 := by omega
                have hval : 4096 * 0 + 256 * 0 + 16 * (c.toNat / 16) + c.toNat % 16 = c.toNat := by
                  omega
                simp only [escChars, if_neg h1, if_neg h2, if_neg h3, if_neg h4, if_neg h5,
                  if_pos h6, List.cons_append, List.append_assoc, List.nil_append]
                simp only [parseStrBody, reduceIte, parseEsc, parseHex4,
                  hexVal_hexChar hdiv, hexVal_hexChar hmod]
                rw [show (hexVal '0') = some 0 from rfl]
                simp only [ih, Option.map_some]
                rw [if_neg (by decide : ¬('\\' : Char) = '"'), hval, Char.ofNat_toNat]
                rfl
              · simp only [escChars, if_neg h1, if_neg h2, if_neg h3, if_neg h4, if_neg h5,
                  if_neg h6, List.cons_append, List.singleton_append]
                simp only [parseStrBody, if_neg h1, if_neg h2, if_neg h6, List.nil_append]
                rw [ih]
                rfl

/-! ### Parsing rendered values back -/

theorem skipWs_cons {c : Char} (cs : List Char) (h : wsChar c = false) :
    skipWs (c :: cs) = c :: cs := by
  simp [skipWs, h]

theorem char_ne_of_toNat {c d : Char} (h : c.toNat ≠ d.toNat) : c ≠ d := by
  intro he
  exact h (by rw [he])

theorem natChars_shape (n : Nat) : ∃ d t, d < 10 ∧ natChars n = digitChar d :: t := by
  cases hnd : natDigits n with
  | nil => exact absurd hnd (natDigitsF_ne_nil n n)
  | cons d ds =>
    refine ⟨d, ds.map digitChar, ?_, by simp [natChars, hnd]⟩
    exact natDigits_lt10 n n (Nat.le_refl n) d
      (by rw [show natDigitsF n n = d :: ds from hnd]; simp)

theorem parseVal_null (f : Nat) (rest : List Char) :
    parseVal (Nat.succ f) ('n' :: 'u' :: 'l' :: 'l' :: rest) = some (.null, rest) := rfl

theorem parseVal_digit_start (f : Nat) (c : Char) (cs : List Char) (hc : isDigit c = true) :
    parseVal (Nat.succ f) (c :: cs) =
      match takeDigits (c :: cs) with
      | (ds, r2) => some (.int (natOfDigits ds), r2) := by
  have h48 : 48 ≤ c.toNat ∧ c.toNat ≤ 57 := by
    simpa [isDigit, Bool.and_eq_true, decide_eq_true_eq] using hc
  obtain ⟨k, hk1, hk2, rfl⟩ : ∃ k, 48 ≤ k ∧ k ≤ 57 ∧ c = Char.ofNat k :=
    ⟨c.toNat, h48.1, h48.2, (Char.ofNat_toNat c).symm⟩
  interval_cases k <;> rfl

theorem parseVal_int (f : Nat) (m : Int) (rest : List Char) (hrest : headDigitFree rest = true) :
    parseVal (Nat.succ f) (intChars m ++ rest) = some (.int m, rest) := by
  have ht : takeDigits (natChars m.natAbs ++ rest) = (natDigits m.natAbs, rest) :=
    takeDigits_natChars _ _ hrest
  have hval : natOfDigits (natDigits m.natAbs) = m.natAbs := natOfDigits_natDigits _
  by_cases hm : m < 0
  · obtain ⟨e0, es, hnd⟩ : ∃ e0 es, natDigits m.natAbs = e0 :: es := by
      cases h : natDigits m.natAbs with
      | nil => exact absurd h (natDigitsF_ne_nil _ _)
      | cons a b => exact ⟨a, b, rfl⟩
    simp only [intChars, if_pos hm, List.cons_append]
    have hstep : parseVal (Nat.succ f) ('-' :: (natChars m.natAbs ++ rest)) =
        match takeDigits (natChars m.natAbs ++ rest) with
        | (d :: ds, r2) => some (.int (-(natOfDigits (d :: ds) : Int)), r2)
        | ([], _) => none := rfl
    rw [hstep, ht, hnd]
    have h2 : natOfDigits (e0 :: es) = m.natAbs := by rw [← hnd]; exact hval
    simp only [h2]
    have h3 : -(m.natAbs : Int) = m := by omega
    rw [h3]
  · obtain ⟨d0, t, hd0, hnc⟩ := natChars_shape m.natAbs
    have hm2 : (m.natAbs : Int) = m := by omega
    simp only [intChars, if_neg hm]
    rw [hnc] at ht ⊢
    simp only [List.cons_append] at ht ⊢
    rw [parseVal_digit_start f (digitChar d0) (t ++ rest) (isDigit_digitChar hd0), ht]
    simp [hval, hm2]

theorem parseVal_str (f : Nat) (s : String) (rest : List Char) :
    parseVal (Nat.succ f) (('"' :: escChars s.data ++ ['"']) ++ rest) = some (.str s, rest) := by
  have hlist : ('"' :: escChars s.data ++ ['"']) ++ rest =
      '"' :: (escChars s.data ++ '"' :: rest) := by simp
  rw [hlist]
  have hstep : parseVal (Nat.succ f) ('"' :: (escChars s.data ++ '"' :: rest)) =
      match parseStrBody ((escChars s.data ++ '"' :: rest).length + 1)
          (escChars s.data ++ '"' :: rest) with
      | some (l, r2) => some (.str (String.mk l), r2)
      | none => none := rfl
  rw [hstep, parseStrBody_escChars _ _ _ (by
    have := escChars_length_ge s.data
    simp only [List.length_append, List.length_cons]
    omega)]

theorem parseVal_scalar (f : Nat) (v : JVal) (rest : List Char) (hv : isScalar v = true)
    (hrest : headDigitFree rest = true) :
    parseVal (Nat.succ f) (renderJ v ++ rest) = some (v, rest) := by
  cases v with
  | null => exact parseVal_null f rest
  | int m => exact parseVal_int f m rest hrest
  | str s => exact parseVal_str f s rest
  | arr xs => simp [isScalar] at hv
  | obj fs => simp [isScalar] at hv

theorem wsChar_digitChar {d : Nat} (h : d < 10) : wsChar (digitChar d) = false := by
  interval_cases d <;> rfl

theorem digitChar_ne_rbracket {d : Nat} (h : d < 10) : digitChar d ≠ ']' := by
  interval_cases d <;> decide

theorem renderJ_scalar_head (v : JVal) (hv : isScalar v = true) :
    ∃ c t, renderJ v = c :: t ∧ wsChar c = false ∧ c ≠ ']' := by
  cases v with
  | null => exact ⟨'n', _, rfl, by decide, by decide⟩
  | int m =>
    by_cases hm : m < 0
    · refine ⟨'-', natChars m.natAbs, ?_, by decide, by decide⟩
      simp [renderJ, intChars, if_pos hm]
    · obtain ⟨d, t, hd, hnc⟩ := natChars_shape m.natAbs
      refine ⟨digitChar d, t, ?_, wsChar_digitChar hd, digitChar_ne_rbracket hd⟩
      simp [renderJ, intChars, if_neg hm, hnc]
  | str s => exact ⟨'"', _, rfl, by decide, by decide⟩
  | arr xs => simp [isScalar] at hv
  | obj fs => simp [isScalar] at hv

theorem parseElems_step (f : Nat) (cs : List Char) :
    parseElems (Nat.succ f) cs =
      match parseVal f cs with
      | some (v, r) =>
        match skipWs r with
        | ',' :: r2 =>
          match parseElems f r2 with
          | some (vs, r3) => some (v :: vs, r3)
          | none => none
        | ']' :: r2 => some ([v], r2)
        | _ => none
      | none => none := rfl

theorem parseElems_renderL : ∀ (vs : List JVal) (f : Nat) (rest : List Char),
    (∀ v ∈ vs, isScalar v = true) → vs ≠ [] → vs.length < f →
    parseElems f (renderL vs ++ ']' :: rest) = some (vs, rest)
  | [], _, _, _, hne, _ => absurd rfl hne
  | [v], f, rest, hall, _, hlen => by
    obtain ⟨f2, rfl⟩ : ∃ f2, f = f2 + 1 + 1 := ⟨f - 2, by simp at hlen; omega⟩
    have h1 : parseVal (f2 + 1) (renderJ v ++ ']' :: rest) = some (v, ']' :: rest) :=
      parseVal_scalar f2 v _ (hall v (by simp)) rfl
    rw [show renderL [v] = renderJ v from rfl, parseElems_step, h1]
    simp [skipWs, wsChar]
  | v :: v2 :: vs, f, rest, hall, _, hlen => by
    obtain ⟨f2, rfl⟩ : ∃ f2, f = f2 + 1 + 1 := ⟨f - 2, by simp at hlen; omega⟩
    have hassoc : renderL (v :: v2 :: vs) ++ ']' :: rest =
        renderJ v ++ ',' :: (renderL (v2 :: vs) ++ ']' :: rest) := by
      simp [renderL]
    have h1 : parseVal (f2 + 1) (renderJ v ++ ',' :: (renderL (v2 :: vs) ++ ']' :: rest)) =
        some (v, ',' :: (renderL (v2 :: vs) ++ ']' :: rest)) :=
      parseVal_scalar f2 v _ (hall v (by simp)) rfl
    have ih := parseElems_renderL (v2 :: vs) (f2 + 1) rest
      (fun x hx => hall x (List.mem_cons_of_mem v hx)) (by simp)
      (by simp at hlen ⊢; omega)
    rw [hassoc, parseElems_step, h1]
    simp [skipWs, wsChar, ih]

theorem parseVal_arr (f : Nat) (vs : List JVal) (rest : List Char)
    (hall : ∀ v ∈ vs, isScalar v = true) (hlen : vs.length + 1 < f) :
    parseVal f ('[' :: (renderL vs ++ ']' :: rest)) = some (.arr vs, rest) := by
  obtain ⟨f1, rfl⟩ : ∃ f1, f = f1 + 1 := ⟨f - 1, by omega⟩
  have hstep : parseVal (f1 + 1) ('[' :: (renderL vs ++ ']' :: rest)) =
      match skipWs (renderL vs ++ ']' :: rest) with
      | ']' :: r2 => some (.arr [], r2)
      | r2 =>
        match parseElems f1 r2 with
        | some (vs2, r3) => some (.arr vs2, r3)
        | none => none := rfl
  rw [hstep]
  cases vs with
  | nil => simp [renderL, skipWs, wsChar]
  | cons v vs2 =>
    obtain ⟨c, t, hct, hws, hnb⟩ := renderJ_scalar_head v (hall v (by simp))
    have ht2 : ∃ t2, renderL (v :: vs2) ++ ']' :: rest = c :: t2 := by
      cases vs2 with
      | nil => exact ⟨t ++ ']' :: rest, by simp [renderL, hct]⟩
      | cons w ws => exact ⟨t ++ ',' :: renderL (w :: ws) ++ ']' :: rest, by simp [renderL, hct]⟩
    obtain ⟨t2, heq2⟩ := ht2
    rw [heq2, skipWs_cons _ hws]
    have hpe : parseElems f1 (c :: t2) = some (v :: vs2, rest) := by
      rw [← heq2]
      exact parseElems_renderL (v :: vs2) f1 rest hall (by simp) (by simp at hlen ⊢; omega)
    split
    · exfalso
      rename_i x1 r2 heq3
      injection heq3 with h1 h2
      exact hnb h1
    · rw [hpe]

theorem renderJ_length_pos : ∀ v : JVal, 1 ≤ (renderJ v).length := by
  intro v
  cases v with
  | null => simp [renderJ]
  | int m =>
    simp only [renderJ, intChars]
    split_ifs
    · simp
    · have h := natChars_ne_nil m.natAbs
      cases hc : natChars m.natAbs with
      | nil => exact absurd hc h
      | cons a b => simp [hc]
  | str s => simp [renderJ]
  | arr xs => simp [renderJ]
  | obj fs => simp [renderJ]

theorem renderL_length : ∀ vs : List JVal, vs.length ≤ (renderL vs).length + 1
  | [] => by simp [renderL]
  | [v] => by
    have := renderJ_length_pos v
    simp only [renderL, List.length_cons, List.length_nil]
    omega
  | v :: v2 :: vs => by
    have h1 := renderJ_length_pos v
    have h2 := renderL_length (v2 :: vs)
    simp only [renderL, List.length_cons, List.length_append] at h2 ⊢
    omega

theorem parseTop_render_arr (vs : List JVal) (hall : ∀ v ∈ vs, isScalar v = true) :
    parseTop (String.mk (renderJ (.arr vs))) = some (.arr vs) := by
  have hr : renderJ (.arr vs) = '[' :: (renderL vs ++ ']' :: []) := by
    simp [renderJ]
  have hlen : vs.length + 1 < ('[' :: (renderL vs ++ ']' :: [])).length + 2 := by
    have := renderL_length vs
    simp only [List.length_cons, List.length_append]
    omega
  simp only [parseTop, hr]
  rw [parseVal_arr _ vs [] hall hlen]
  rfl

theorem parseTop_intChars (m : Int) : parseTop (String.mk (intChars m)) = some (.int m) := by
  have hlen : 1 ≤ (intChars m).length := by
    simp only [intChars]
    split_ifs
    · simp
    · have h := natChars_ne_nil m.natAbs
      cases hc : natChars m.natAbs with
      | nil => exact absurd hc h
      | cons a b => simp [hc]
  obtain ⟨k, hk⟩ : ∃ k, (intChars m).length + 2 = k + 1 := ⟨(intChars m).length + 1, rfl⟩
  have hstep : parseVal (k + 1) (intChars m ++ []) = some (.int m, []) :=
    parseVal_int k m [] rfl
  rw [List.append_nil] at hstep
  simp only [parseTop, hk]
  rw [hstep]
  rfl

theorem fromj_single (a : Arg) (xs : List JVal) (h : fromj1 a = .ok xs) :
    fromj [a] = .ok xs := by
  simp [fromj, h, Bind.bind, Except.bind, pure, Except.pure]

/-- C1 (counterexample): the round-trip law fails as stated.  For the
one-element sequence holding the text value "3", the encoder renders the
bare scalar text `3`, and flat decoding re-reads that pack as the integer
3, not the text "3". -/
theorem roundtrip_flat_counterexample :
    toj [JVal.str "3"] = "3" ∧
      fromj [Arg.txt (toj [JVal.str "3"])] = .ok [JVal.int 3] ∧
      [JVal.int 3] ≠ [JVal.str "3"] :=
  ⟨rfl, rfl, fun h => by injection h with h1 _; exact JVal.noConfusion h1⟩

/-- C1 (amended): for every sequence S of scalar values, flat decoding of
the encoded pack yields S again, provided S is not a single text value
whose raw content itself parses as JSON or begins with a structural
character (`bareSafe S`); such bare renderings are reinterpreted (or
rejected) by the decoder. -/
theorem roundtrip_flat_amended (S : List JVal) (hS : S.all isScalar = true)
    (hbare : bareSafe S = true) :
    fromj [Arg.txt (toj S)] = .ok S := by
  match S with
  | [] => rfl
  | [JVal.null] => rfl
  | [JVal.int m] =>
    apply fromj_single
    show (match parseTop (toj [JVal.int m]) with
      | some (.arr xs) => Except.ok xs
      | some v => Except.ok [v]
      | none => if startsStruct (toj [JVal.int m]) then Except.error Err.decode
                else Except.ok [JVal.str (toj [JVal.int m])]) = Except.ok [JVal.int m]
    rw [show toj [JVal.int m] = String.mk (intChars m) from rfl, parseTop_intChars]
  | [JVal.str s] =>
    simp only [bareSafe, Bool.and_eq_true, Bool.not_eq_true'] at hbare
    have hp : parseTop s = none := Option.isNone_iff_eq_none.mp hbare.1
    apply fromj_single
    show (match parseTop s with
      | some (.arr xs) => Except.ok xs
      | some v => Except.ok [v]
      | none => if startsStruct s then Except.error Err.decode
                else Except.ok [JVal.str s]) = Except.ok [JVal.str s]
    rw [hp, hbare.2]
    simp
  | [JVal.arr xs] => simp [List.all_eq_true, isScalar] at hS
  | [JVal.obj fs] => simp [List.all_eq_true, isScalar] at hS
  | v1 :: v2 :: vs =>
    have hall : ∀ v ∈ v1 :: v2 :: vs, isScalar v = true := by
      simpa [List.all_eq_true] using hS
    have htoj : toj (v1 :: v2 :: vs) = String.mk (renderJ (.arr (v1 :: v2 :: vs))) := by
      cases v1 <;> rfl
    have hpt := parseTop_render_arr (v1 :: v2 :: vs) hall
    apply fromj_single
    rw [htoj]
    show (match parseTop (String.mk (renderJ (.arr (v1 :: v2 :: vs)))) with
      | some (.arr xs) => Except.ok xs
      | some v => Except.ok [v]
      | none => if startsStruct (String.mk (renderJ (.arr (v1 :: v2 :: vs))))
                then Except.error Err.decode
                else Except.ok [JVal.str (String.mk (renderJ (.arr (v1 :: v2 :: vs))))]) =
      Except.ok (v1 :: v2 :: vs)
    rw [hpt]

/-- C1 (witness): the amended round-trip law at a concrete sequence. -/
theorem roundtrip_flat_witness :
    ([JVal.int 7, JVal.str "a b", JVal.null].all isScalar = true) ∧
      bareSafe [JVal.int 7, JVal.str "a b", JVal.null] = true ∧
      fromj [Arg.txt (toj [JVal.int 7, JVal.str "a b", JVal.null])] =
        .ok [JVal.int 7, JVal.str "a b", JVal.null] :=
  ⟨by decide, by decide, roundtrip_flat_amended _ (by decide) (by decide)⟩

/-! ### The canonical comparison is a total order -/

theorem ordering_then_swap (a b : Ordering) : (a.then b).swap = a.swap.then b.swap := by
  cases a <;> cases b <;> rfl

theorem ordering_then_eq {a b : Ordering} (h : a.then b = .eq) : a = .eq ∧ b = .eq := by
  cases a <;> cases b <;> simp_all [Ordering.then]

theorem natCmp_swap (m n : Nat) : natCmp m n = (natCmp n m).swap := by
  simp only [natCmp]
  rcases Nat.lt_trichotomy m n with h | h | h
  · rw [if_pos h, if_neg (by omega : ¬ n < m), if_neg (by omega : ¬ n = m)]
    rfl
  · subst h
    simp [Nat.lt_irrefl]
    rfl
  · rw [if_neg (by omega : ¬ m < n), if_neg (by omega : ¬ m = n), if_pos h]
    rfl

theorem natCmp_eq {m n : Nat} (h : natCmp m n = .eq) : m = n := by
  simp only [natCmp] at h
  split_ifs at h <;> simp_all

theorem natCmp_lt_iff {m n : Nat} : natCmp m n = .lt ↔ m < n := by
  simp only [natCmp]
  split_ifs <;> simp_all

theorem intCmp_swap (m n : Int) : intCmp m n = (intCmp n m).swap := by
  simp only [intCmp]
  rcases lt_trichotomy m n with h | h | h
  · rw [if_pos h, if_neg (by omega : ¬ n < m), if_neg (by omega : ¬ n = m)]
    rfl
  · subst h
    simp [lt_irrefl]
    rfl
  · rw [if_neg (by omega : ¬ m < n), if_neg (by omega : ¬ m = n), if_pos h]
    rfl

theorem intCmp_eq {m n : Int} (h : intCmp m n = .eq) : m = n := by
  simp only [intCmp] at h
  split_ifs at h <;> simp_all

theorem intCmp_lt_trans {a b c : Int} (h1 : intCmp a b = .lt) (h2 : intCmp b c = .lt) :
    intCmp a c = .lt := by
  simp only [intCmp] at *
  split_ifs at * <;> simp_all <;> omega

theorem charCmp_swap (c d : Char) : charCmp c d = (charCmp d c).swap := natCmp_swap _ _

theorem charCmp_eq {c d : Char} (h : charCmp c d = .eq) : c = d := by
  have := natCmp_eq h
  rw [← Char.ofNat_toNat c, ← Char.ofNat_toNat d, this]

theorem charCmp_lt_trans {a b c : Char} (h1 : charCmp a b = .lt) (h2 : charCmp b c = .lt) :
    charCmp a c = .lt := by
  simp only [charCmp, natCmp_lt_iff] at *
  omega

theorem cmpLex_swap (f : α → α → Ordering) :
    ∀ (as bs : List α), (∀ a ∈ as, ∀ b ∈ bs, f a b = (f b a).swap) →
      cmpLex f as bs = (cmpLex f bs as).swap
  | [], [], _ => rfl
  | [], _ :: _, _ => rfl
  | _ :: _, [], _ => rfl
  | a :: as, b :: bs, H => by
    simp only [cmpLex]
    rw [H a (by simp) b (by simp)]
    cases h : f b a <;> simp [Ordering.swap] <;>
      exact cmpLex_swap f as bs (fun x hx y hy => H x (by simp [hx]) y (by simp [hy]))

theorem cmpLex_eq (f : α → α → Ordering) :
    ∀ (as bs : List α), (∀ a ∈ as, ∀ b ∈ bs, f a b = .eq → a = b) →
      cmpLex f as bs = .eq → as = bs
  | [], [], _, _ => rfl
  | [], _ :: _, _, h => by simp [cmpLex] at h
  | _ :: _, [], _, h => by simp [cmpLex] at h
  | a :: as, b :: bs, H, h => by
    simp only [cmpLex] at h
    cases hf : f a b <;> rw [hf] at h
    · exact absurd h (by simp)
    · have hab : a = b := H a (by simp) b (by simp) hf
      have : as = bs :=
        cmpLex_eq f as bs (fun x hx y hy => H x (by simp [hx]) y (by simp [hy])) h
      rw [hab, this]
    · exact absurd h (by simp)

theorem cmpLex_lt_trans (f : α → α → Ordering) :
    ∀ (as bs cs : List α),
      (∀ a ∈ as, ∀ b ∈ bs, f a b = .eq → a = b) →
      (∀ b ∈ bs, ∀ c ∈ cs, f b c = .eq → b = c) →
      (∀ a ∈ as, ∀ b ∈ bs, ∀ c ∈ cs, f a b = .lt → f b c = .lt → f a c = .lt) →
      cmpLex f as bs = .lt → cmpLex f bs cs = .lt → cmpLex f as cs = .lt
  | [], [], _, _, _, _, h1, _ => by simp [cmpLex] at h1
  | [], _ :: _, [], _, _, _, _, h2 => by simp [cmpLex] at h2
  | [], _ :: _, _ :: _, _, _, _, _, _ => by simp [cmpLex]
  | _ :: _, [], _, _, _, _, h1, _ => by simp [cmpLex] at h1
  | _ :: _, _ :: _, [], _, _, _, _, h2 => by simp [cmpLex] at h2
  | a :: as, b :: bs, c :: cs, He1, He2, Ht, h1, h2 => by
    simp only [cmpLex] at h1 h2 ⊢
    cases hab : f a b <;> rw [hab] at h1
    · -- f a b = lt
      cases hbc : f b c <;> rw [hbc] at h2
      · rw [Ht a (by simp) b (by simp) c (by simp) hab hbc]
      · have : b = c := He2 b (by simp) c (by simp) hbc
        rw [← this, hab]
      · exact absurd h2 (by simp)
    · -- f a b = eq
      have hab2 : a = b := He1 a (by simp) b (by simp) hab
      cases hbc : f b c <;> rw [hbc] at h2
      · rw [hab2, hbc]
      · have hbc2 : b = c := He2 b (by simp) c (by simp) hbc
        subst hbc2
        subst hab2
        rw [hab]
        exact cmpLex_lt_trans f as bs cs
          (fun x hx y hy => He1 x (by simp [hx]) y (by simp [hy]))
          (fun x hx y hy => He2 x (by simp [hx]) y (by simp [hy]))
          (fun x hx y hy z hz => Ht x (by simp [hx]) y (by simp [hy]) z (by simp [hz]))
          h1 h2
      · exact absurd h2 (by simp)
    · exact absurd h1 (by simp)

theorem strCmp_swap (s t : String) : strCmp s t = (strCmp t s).swap :=
  cmpLex_swap charCmp s.data t.data (fun a _ b _ => charCmp_swap a b)

theorem strCmp_eq {s t : String} (h : strCmp s t = .eq) : s = t := by
  have hd : s.data = t.data :=
    cmpLex_eq charCmp s.data t.data (fun a _ b _ hab => charCmp_eq hab) h
  cases s
  cases t
  exact congrArg String.mk hd

theorem strCmp_lt_trans {a b c : String} (h1 : strCmp a b = .lt) (h2 : strCmp b c = .lt) :
    strCmp a c = .lt :=
  cmpLex_lt_trans charCmp a.data b.data c.data
    (fun x _ y _ h => charCmp_eq h) (fun x _ y _ h => charCmp_eq h)
    (fun x _ y _ z _ hx hy => charCmp_lt_trans hx hy) h1 h2

theorem ordering_then_lt {a b : Ordering} (h : a.then b = .lt) :
    a = .lt ∨ (a = .eq ∧ b = .lt) := by
  cases a <;> cases b <;> simp_all [Ordering.then]

theorem natCmp_self (n : Nat) : natCmp n n = .eq := by
  simp [natCmp]

theorem cmpArr_eq_lex : ∀ xs ys, cmpArr xs ys = cmpLex cmpV xs ys
  | [], [] => rfl
  | [], _ :: _ => rfl
  | _ :: _, [] => rfl
  | a :: as, b :: bs => by
    simp only [cmpArr, cmpLex, cmpV]
    cases h : (natCmp (rank a) (rank b)).then (cmpSame a b) <;>
      simp [h, cmpArr_eq_lex as bs]

theorem cmpObj_eq_lex : ∀ fs gs, cmpObj fs gs = cmpLex cmpPairKV fs gs
  | [], [] => rfl
  | [], _ :: _ => rfl
  | _ :: _, [] => rfl
  | (k, v) :: fs, (k', v') :: gs => by
    simp only [cmpObj, cmpLex, cmpPairKV, cmpV]
    cases h : (strCmp k k').then ((natCmp (rank v) (rank v')).then (cmpSame v v')) <;>
      simp [h, cmpObj_eq_lex fs gs]

theorem sizeOf_pos_jval (v : JVal) : 1 ≤ sizeOf v := by
  cases v <;> simp

theorem cmpSame_swapN : ∀ (n : Nat) (a b : JVal), sizeOf a ≤ n →
    cmpSame a b = (cmpSame b a).swap := by
  intro n
  induction n with
  | zero =>
    intro a b hs
    have := sizeOf_pos_jval a
    omega
  | succ n ih =>
    intro a b hs
    have hsub : ∀ (x y : JVal), sizeOf x ≤ n → cmpV x y = (cmpV y x).swap := by
      intro x y hx
      simp only [cmpV]
      rw [ordering_then_swap, ← natCmp_swap, ih x y hx]
    cases a <;> cases b <;>
      first
        | rfl
        | exact intCmp_swap _ _
        | exact strCmp_swap _ _
        | (rename_i xs ys
           show cmpArr xs ys = (cmpArr ys xs).swap
           rw [cmpArr_eq_lex, cmpArr_eq_lex]
           apply cmpLex_swap
           intro x hx y hy
           apply hsub
           have h1 := List.sizeOf_lt_of_mem hx
           have h2 : sizeOf (JVal.arr xs) = 1 + sizeOf xs := by simp
           omega)
        | (rename_i fs gs
           show cmpObj fs gs = (cmpObj gs fs).swap
           rw [cmpObj_eq_lex, cmpObj_eq_lex]
           apply cmpLex_swap
           intro p hp q hq
           obtain ⟨k, v⟩ := p
           obtain ⟨k', v'⟩ := q
           simp only [cmpPairKV]
           rw [ordering_then_swap, ← strCmp_swap]
           have hv : cmpV v v' = (cmpV v' v).swap := by
             apply hsub
             have h1 := List.sizeOf_lt_of_mem hp
             have h2 : sizeOf (JVal.obj fs) = 1 + sizeOf fs := by simp
             have h3 : sizeOf ((k, v) : String × JVal) = 1 + sizeOf k + sizeOf v := by simp
             omega
           rw [hv])

theorem cmpV_swap (a b : JVal) : cmpV a b = (cmpV b a).swap := by
  simp only [cmpV]
  rw [ordering_then_swap, ← natCmp_swap, cmpSame_swapN (sizeOf a) a b (Nat.le_refl _)]

theorem cmpV_rank_eq {a b : JVal} (h : cmpV a b = .eq) : rank a = rank b :=
  natCmp_eq (ordering_then_eq h).1

theorem cmpSame_eqN : ∀ (n : Nat) (a b : JVal), sizeOf a ≤ n → rank a = rank b →
    cmpSame a b = .eq → a = b := by
  intro n
  induction n with
  | zero =>
    intro a b hs
    have := sizeOf_pos_jval a
    omega
  | succ n ih =>
    intro a b hs hr h
    have hsub : ∀ (x y : JVal), sizeOf x ≤ n → cmpV x y = .eq → x = y := by
      intro x y hx hxy
      exact ih x y hx (cmpV_rank_eq hxy) (ordering_then_eq hxy).2
    cases a <;> cases b <;> simp only [rank] at hr <;> try omega
    · rfl
    · rw [intCmp_eq h]
    · rw [strCmp_eq h]
    · rename_i xs ys
      have h2 : cmpArr xs ys = .eq := h
      rw [cmpArr_eq_lex] at h2
      have hxy : xs = ys := by
        apply cmpLex_eq cmpV xs ys ?_ h2
        intro x hx y hy hxyeq
        apply hsub x y ?_ hxyeq
        have h1 := List.sizeOf_lt_of_mem hx
        have h3 : sizeOf (JVal.arr xs) = 1 + sizeOf xs := by simp
        omega
      rw [hxy]
    · rename_i fs gs
      have h2 : cmpObj fs gs = .eq := h
      rw [cmpObj_eq_lex] at h2
      have hfg : fs = gs := by
        apply cmpLex_eq cmpPairKV fs gs ?_ h2
        intro p hp q hq hpq
        obtain ⟨k, v⟩ := p
        obtain ⟨k', v'⟩ := q
        obtain ⟨hk, hv⟩ := ordering_then_eq hpq
        have hkk : k = k' := strCmp_eq hk
        have hvv : v = v' := by
          apply hsub v v' ?_ hv
          have h1 := List.sizeOf_lt_of_mem hp
          have h3 : sizeOf (JVal.obj fs) = 1 + sizeOf fs := by simp
          have h4 : sizeOf ((k, v) : String × JVal) = 1 + sizeOf k + sizeOf v := by simp
          omega
        rw [hkk, hvv]
      rw [hfg]

theorem cmpV_eq {a b : JVal} (h : cmpV a b = .eq) : a = b :=
  cmpSame_eqN (sizeOf a) a b (Nat.le_refl _) (cmpV_rank_eq h) (ordering_then_eq h).2

theorem cmpV_lt_of_rank_lt {a b : JVal} (h : rank a < rank b) : cmpV a b = .lt := by
  simp only [cmpV]
  rw [show natCmp (rank a) (rank b) = .lt from natCmp_lt_iff.mpr h]
  rfl

theorem cmpV_lt_of_rank_eq {a b : JVal} (h : rank a = rank b) (h2 : cmpSame a b = .lt) :
    cmpV a b = .lt := by
  simp only [cmpV, h, natCmp_self]
  exact h2

theorem cmpV_lt_cases {a b : JVal} (h : cmpV a b = .lt) :
    rank a < rank b ∨ (rank a = rank b ∧ cmpSame a b = .lt) := by
  simp only [cmpV] at h
  rcases ordering_then_lt h with h1 | ⟨h1, h2⟩
  · exact Or.inl (natCmp_lt_iff.mp h1)
  · exact Or.inr ⟨natCmp_eq h1, h2⟩

theorem cmpSame_lt_transN : ∀ (n : Nat) (a b c : JVal), sizeOf a ≤ n →
    rank a = rank b → rank b = rank c →
    cmpSame a b = .lt → cmpSame b c = .lt → cmpSame a c = .lt := by
  intro n
  induction n with
  | zero =>
    intro a b c hs
    have := sizeOf_pos_jval a
    omega
  | succ n ih =>
    intro a b c hs hr1 hr2 h1 h2
    have hsub : ∀ (x y z : JVal), sizeOf x ≤ n →
        cmpV x y = .lt → cmpV y z = .lt → cmpV x z = .lt := by
      intro x y z hx hxy hyz
      rcases cmpV_lt_cases hxy with hl1 | ⟨he1, hs1⟩
      · rcases cmpV_lt_cases hyz with hl2 | ⟨he2, hs2⟩
        · exact cmpV_lt_of_rank_lt (by omega)
        · exact cmpV_lt_of_rank_lt (by omega)
      · rcases cmpV_lt_cases hyz with hl2 | ⟨he2, hs2⟩
        · exact cmpV_lt_of_rank_lt (by omega)
        · exact cmpV_lt_of_rank_eq (by omega) (ih x y z hx he1 he2 hs1 hs2)
    cases a <;> cases b <;> cases c <;> simp only [rank] at hr1 hr2 <;> try omega
    · simp [cmpSame] at h1
    · exact intCmp_lt_trans h1 h2
    · exact strCmp_lt_trans h1 h2
    · rename_i xs ys zs
      show cmpArr xs zs = .lt
      have g1 : cmpArr xs ys = .lt := h1
      have g2 : cmpArr ys zs = .lt := h2
      rw [cmpArr_eq_lex] at g1 g2 ⊢
      apply cmpLex_lt_trans cmpV xs ys zs ?_ ?_ ?_ g1 g2
      · exact fun x _ y _ hxy => cmpV_eq hxy
      · exact fun x _ y _ hxy => cmpV_eq hxy
      · intro x hx y hy z hz hxy hyz
        apply hsub x y z ?_ hxy hyz
        have hm := List.sizeOf_lt_of_mem hx
        have hσ : sizeOf (JVal.arr xs) = 1 + sizeOf xs := by simp
        omega
    · rename_i fs gs hs2
      show cmpObj fs hs2 = .lt
      have g1 : cmpObj fs gs = .lt := h1
      have g2 : cmpObj gs hs2 = .lt := h2
      rw [cmpObj_eq_lex] at g1 g2 ⊢
      apply cmpLex_lt_trans cmpPairKV fs gs hs2 ?_ ?_ ?_ g1 g2
      · intro p _ q _ hpq
        obtain ⟨k, v⟩ := p
        obtain ⟨k', v'⟩ := q
        obtain ⟨hk, hv⟩ := ordering_then_eq hpq
        have e1 : k = k' := strCmp_eq hk
        have e2 : v = v' := cmpV_eq hv
        rw [e1, e2]
      · intro p _ q _ hpq
        obtain ⟨k, v⟩ := p
        obtain ⟨k', v'⟩ := q
        obtain ⟨hk, hv⟩ := ordering_then_eq hpq
        have e1 : k = k' := strCmp_eq hk
        have e2 : v = v' := cmpV_eq hv
        rw [e1, e2]
      · intro p hp q hq r hr hpq hqr
        obtain ⟨k1, v1⟩ := p
        obtain ⟨k2, v2⟩ := q
        obtain ⟨k3, v3⟩ := r
        simp only [cmpPairKV] at hpq hqr ⊢
        have hsz : sizeOf v1 ≤ n := by
          have hm := List.sizeOf_lt_of_mem hp
          have hσ : sizeOf (JVal.obj fs) = 1 + sizeOf fs := by simp
          have hπ : sizeOf ((k1, v1) : String × JVal) = 1 + sizeOf k1 + sizeOf v1 := by simp
          omega
        rcases ordering_then_lt hpq with hk1 | ⟨hk1e, hv1⟩
        · rcases ordering_then_lt hqr with hk2 | ⟨hk2e, hv2⟩
          · rw [strCmp_lt_trans hk1 hk2]
            rfl
          · have e : k2 = k3 := strCmp_eq hk2e
            rw [← e, hk1]
            rfl
        · have e : k1 = k2 := strCmp_eq hk1e
          rcases ordering_then_lt hqr with hk2 | ⟨hk2e, hv2⟩
          · rw [e, hk2]
            rfl
          · have e2 : k2 = k3 := strCmp_eq hk2e
            rw [e, e2]
            have hself : strCmp k3 k3 = .eq := by
              have hsw := strCmp_swap k3 k3
              cases h : strCmp k3 k3
              · rw [h] at hsw
                exact absurd hsw (by decide)
              · rfl
              · rw [h] at hsw
                exact absurd hsw (by decide)
            rw [hself]
            exact hsub v1 v2 v3 hsz hv1 hv2
    all_goals simp_all [cmpSame]

theorem cmpV_lt_trans {a b c : JVal} (h1 : cmpV a b = .lt) (h2 : cmpV b c = .lt) :
    cmpV a c = .lt := by
  rcases cmpV_lt_cases h1 with hl1 | ⟨he1, hs1⟩
  · rcases cmpV_lt_cases h2 with hl2 | ⟨he2, hs2⟩
    · exact cmpV_lt_of_rank_lt (by omega)
    · exact cmpV_lt_of_rank_lt (by omega)
  · rcases cmpV_lt_cases h2 with hl2 | ⟨he2, hs2⟩
    · exact cmpV_lt_of_rank_lt (by omega)
    · exact cmpV_lt_of_rank_eq (by omega)
        (cmpSame_lt_transN (sizeOf a) a b c (Nat.le_refl _) he1 he2 hs1 hs2)

theorem strCmp_self (s : String) : strCmp s s = .eq := by
  have hsw := strCmp_swap s s
  cases h : strCmp s s
  · rw [h] at hsw
    exact absurd hsw (by decide)
  · rfl
  · rw [h] at hsw
    exact absurd hsw (by decide)

theorem cmpItem_swap (p q : String × JVal) : cmpItem p q = (cmpItem q p).swap := by
  simp only [cmpItem]
  rw [ordering_then_swap, ← cmpV_swap, ← strCmp_swap]

theorem cmpItem_eq {p q : String × JVal} (h : cmpItem p q = .eq) : p = q := by
  obtain ⟨hv, hk⟩ := ordering_then_eq h
  obtain ⟨k1, v1⟩ := p
  obtain ⟨k2, v2⟩ := q
  have e1 : k1 = k2 := strCmp_eq hk
  have e2 : v1 = v2 := cmpV_eq hv
  rw [e1, e2]

theorem cmpItem_lt_trans {p q r : String × JVal}
    (h1 : cmpItem p q = .lt) (h2 : cmpItem q r = .lt) : cmpItem p r = .lt := by
  obtain ⟨k1, v1⟩ := p
  obtain ⟨k2, v2⟩ := q
  obtain ⟨k3, v3⟩ := r
  simp only [cmpItem] at h1 h2 ⊢
  rcases ordering_then_lt h1 with hv1 | ⟨hv1e, hk1⟩
  · rcases ordering_then_lt h2 with hv2 | ⟨hv2e, hk2⟩
    · rw [cmpV_lt_trans hv1 hv2]
      rfl
    · have e : v2 = v3 := cmpV_eq hv2e
      rw [← e, hv1]
      rfl
  · have e : v1 = v2 := cmpV_eq hv1e
    rcases ordering_then_lt h2 with hv2 | ⟨hv2e, hk2⟩
    · rw [e, hv2]
      rfl
    · have e2 : v2 = v3 := cmpV_eq hv2e
      rw [e, e2]
      have hself : cmpV v3 v3 = .eq := by
        have hsw := cmpV_swap v3 v3
        cases h : cmpV v3 v3
        · rw [h] at hsw
          exact absurd hsw (by decide)
        · rfl
        · rw [h] at hsw
          exact absurd hsw (by decide)
      rw [hself]
      exact strCmp_lt_trans hk1 hk2

instance : IsTotal (String × JVal) leItem :=
  ⟨fun p q => by
    cases h : cmpItem p q
    · exact Or.inl (by simp [leItem, h])
    · exact Or.inl (by simp [leItem, h])
    · refine Or.inr ?_
      have hsw := cmpItem_swap q p
      rw [h] at hsw
      simp only [leItem, hsw]
      decide⟩

instance : IsTrans (String × JVal) leItem :=
  ⟨fun p q r h1 h2 => by
    simp only [leItem] at *
    cases hpq : cmpItem p q
    · cases hqr : cmpItem q r
      · simp [cmpItem_lt_trans hpq hqr]
      · have e : q = r := cmpItem_eq hqr
        rw [← e, hpq]
        decide
      · exact absurd hqr h2
    · have e : p = q := cmpItem_eq hpq
      rw [e]
      exact h2
    · exact absurd hpq h1⟩

instance : IsAntisymm (String × JVal) leItem :=
  ⟨fun p q h1 h2 => by
    simp only [leItem] at *
    cases hpq : cmpItem p q
    · have hsw := cmpItem_swap q p
      rw [hpq] at hsw
      have : cmpItem q p = .gt := by
        cases h : cmpItem q p <;> rw [h] at hsw <;> first | rfl | exact absurd hsw (by decide)
      exact absurd this h2
    · exact cmpItem_eq hpq
    · exact absurd hpq h1⟩

/-- C2: with a braced, object-parsing first argument and no selected keys,
`jdictvals` returns the mapping's values ordered by the (value, key) pair:
whenever `l` is any (value, key)-sorted permutation of the mapping's items,
the output is exactly the value column of `l`.  The sort key is the pair,
not the key alone. -/
theorem jdictvals_sorted_by_value_key (s : String) (fs : List (String × JVal))
    (c0 : Char) (cs0 : List Char) (hdata : s.data = c0 :: cs0)
    (hbrace : bracedData (c0 :: cs0) = true)
    (hparse : parseTop s = some (.obj fs))
    (l : List (String × JVal)) (hperm : (dictOf fs).Perm l)
    (hsort : List.Sorted leItem l) :
    jdictvals [Arg.txt s] = .ok (.txt (toj (l.map Prod.snd))) := by
  have hkey : List.insertionSort leItem (dictOf fs) = l :=
    List.eq_of_perm_of_sorted ((List.perm_insertionSort _ _).trans hperm)
      (List.sorted_insertionSort _ _) hsort
  simp only [jdictvals]
  rw [hdata]
  simp only [hbrace, if_pos]
  rw [hparse]
  show Except.ok (Arg.txt (toj ((List.insertionSort leItem (dictOf fs)).map Prod.snd))) =
    Except.ok (Arg.txt (toj (l.map Prod.snd)))
  rw [hkey]

/-- C2 (witness): for the object with items b ↦ 2, a ↦ 3, the output
follows the (value, key) order - values [2,3] - although the key order
would give [3,2]. -/
theorem jdictvals_sorted_by_value_key_witness :
    ("\x7b\"b\":2,\"a\":3\x7d" : String).data = '\x7b' :: "\"b\":2,\"a\":3\x7d".data ∧
      bracedData ('\x7b' :: "\"b\":2,\"a\":3\x7d".data) = true ∧
      parseTop "\x7b\"b\":2,\"a\":3\x7d" =
        some (.obj [("b", JVal.int 2), ("a", JVal.int 3)]) ∧
      jdictvals [Arg.txt "\x7b\"b\":2,\"a\":3\x7d"] =
        .ok (.txt (toj [JVal.int 2, JVal.int 3])) :=
  ⟨rfl, by decide, rfl,
    jdictvals_sorted_by_value_key "\x7b\"b\":2,\"a\":3\x7d"
      [("b", JVal.int 2), ("a", JVal.int 3)] '\x7b' "\"b\":2,\"a\":3\x7d".data rfl
      (by decide) rfl [("b", JVal.int 2), ("a", JVal.int 3)] (List.Perm.refl _)
      (by
        constructor
        · intro b hb
          simp only [List.mem_singleton] at hb
          rw [hb]
          decide
        · constructor
          · intro b hb
            simp at hb
          · exact List.sorted_nil)⟩

/-- C4: the `jsplit` source yields `('C1',)` when the decoded sequence is
empty, but control then falls through (there is no early return), so the
empty schema tuple and the empty row are still yielded afterwards: the
stream holds three items, not one. -/
theorem jsplit_empty_fallthrough :
    jsplit [Arg.txt "[]"] =
      .ok [Row.schema ["C1"], Row.schema [], Row.data []] := rfl

/-- C3: every streaming row producer (`jsplitv`, `jsplit`, `jdictsplit`,
`IGroup.VTiter`) yields the column-name item first whenever it yields at
all; data rows only follow it, and the stream is a finite list, so nothing
follows its end. -/
theorem stream_first_item_is_schema :
    (∀ (args : List Arg) (rows : List (Row (List String) (List String))),
        jsplitv args = .ok rows → ∃ cols rest, rows = Row.schema cols :: rest) ∧
    (∀ (args : List Arg) (rows : List (Row (List String) (List String))),
        jsplit args = .ok rows → ∃ cols rest, rows = Row.schema cols :: rest) ∧
    (∀ (args : List Arg) (rows : List (Row (List Arg) (List JVal))),
        jdictsplit args = .ok rows → ∃ cols rest, rows = Row.schema cols :: rest) ∧
    (∀ (β : Type) (largs : List Arg) (dictargs : List (String × String))
        (db : String → Option (Cursor β)) (rows : List (Row (List String) (List β))),
        VTiter β largs dictargs db = .ok rows → ∃ cols rest, rows = Row.schema cols :: rest) := by
  refine ⟨?_, ?_, ?_, ?_⟩
  · intro args rows h
    cases hf : fromj args with
    | error e => simp [jsplitv, hf, Bind.bind, Except.bind] at h
    | ok vs =>
      simp [jsplitv, hf, Bind.bind, Except.bind, pure, Except.pure] at h
      exact ⟨["C1"], _, h.symm⟩
  · intro args rows h
    cases hf : fromj args with
    | error e => simp [jsplit, hf, Bind.bind, Except.bind] at h
    | ok vs =>
      simp only [jsplit, hf, Bind.bind, Except.bind, pure, Except.pure] at h
      by_cases hempty : (vs.map (fun v => toj [v])).isEmpty
      · rw [if_pos hempty] at h
        injection h with h2
        exact ⟨["C1"], _, h2.symm⟩
      · rw [if_neg hempty] at h
        injection h with h2
        rw [List.nil_append] at h2
        exact ⟨_, _, h2.symm⟩
  · intro args rows h
    match args with
    | [] => simp [jdictsplit] at h
    | Arg.num n :: keys => simp [jdictsplit] at h
    | Arg.txt s :: keys =>
      simp only [jdictsplit] at h
      cases hp : parseTop s with
      | none => rw [hp] at h; simp at h
      | some d =>
        rw [hp] at h
        cases keys with
        | nil =>
          cases d with
          | obj fs =>
            injection h with h2
            exact ⟨_, _, h2.symm⟩
          | null => simp at h
          | int m => simp at h
          | str t => simp at h
          | arr xs => simp at h
        | cons k ks =>
          injection h with h2
          exact ⟨_, _, h2.symm⟩
  · intro β largs dictargs db rows h
    cases hl : dictargs.lookup "query" with
    | none => simp [VTiter, hl] at h
    | some q =>
      cases hd : db q with
      | none => simp [VTiter, hl, hd] at h
      | some c =>
        simp only [VTiter, hl, hd] at h
        injection h with h2
        exact ⟨_, _, h2.symm⟩

/-- C3 (witness): the first item of the `jsplitv` stream on a concrete
argument is the one-column schema. -/
theorem stream_first_item_is_schema_witness :
    jsplitv [Arg.txt "[1,2]"] =
      .ok [Row.schema ["C1"], Row.data ["1"], Row.data ["2"]] ∧
      ∃ cols rest,
        ([Row.schema ["C1"], Row.data ["1"], Row.data ["2"]] :
          List (Row (List String) (List String))) = Row.schema cols :: rest :=
  ⟨rfl, stream_first_item_is_schema.1 [Arg.txt "[1,2]"] _ rfl⟩

/-- C7: when the named arguments carry no `query` key, `IGroup.VTiter`
fails with the typed operator error naming the operator (`igroup`) and the
missing argument, for every data handle - in particular one with no
cursors at all - so no sub-cursor is opened and no row is produced. -/
theorem igroup_missing_query (β : Type) (largs : List Arg)
    (dictargs : List (String × String)) (db : String → Option (Cursor β))
    (h : dictargs.lookup "query" = none) :
    VTiter β largs dictargs db = .error (.operator "igroup" "No query argument ") := by
  simp [VTiter, h]

/-- C7 (witness): a concrete invocation without `query`. -/
theorem igroup_missing_query_witness :
    ([("q", "select 1")] : List (String × String)).lookup "query" = none ∧
      VTiter Nat [] [("q", "select 1")] (fun _ => none) =
        .error (.operator "igroup" "No query argument ") :=
  ⟨rfl, igroup_missing_query Nat [] [("q", "select 1")] (fun _ => none) rfl⟩

/-- C6: with a braced, object-parsing first argument and a nonempty list
of selected keys, `jdictvals` returns the keys' values in exactly the
given order, substituting null for a key that is missing from the
mapping. -/
theorem jdictvals_selected_keys (s : String) (fs : List (String × JVal))
    (c0 : Char) (cs0 : List Char) (hdata : s.data = c0 :: cs0)
    (hbrace : bracedData (c0 :: cs0) = true)
    (hparse : parseTop s = some (.obj fs))
    (keys : List Arg) (hne : keys ≠ []) :
    jdictvals (Arg.txt s :: keys) =
      .ok (.txt (toj (keys.map (fun k => (lookupKey (dictOf fs) k).getD .null)))) := by
  simp only [jdictvals]
  rw [hdata]
  simp only [hbrace, if_pos]
  rw [hparse]
  cases keys with
  | nil => exact absurd rfl hne
  | cons k ks => rfl

/-- C6 (witness): the spec's example - keys k3, k1, k4 against the mapping
k1 ↦ 1, k2 ↦ 2, k3 ↦ 3 yield [3, 1, null]. -/
theorem jdictvals_selected_keys_witness :
    ("\x7b\"k1\":1,\"k2\":2,\"k3\":3\x7d" : String).data =
        '\x7b' :: "\"k1\":1,\"k2\":2,\"k3\":3\x7d".data ∧
      parseTop "\x7b\"k1\":1,\"k2\":2,\"k3\":3\x7d" =
        some (.obj [("k1", JVal.int 1), ("k2", JVal.int 2), ("k3", JVal.int 3)]) ∧
      jdictvals [Arg.txt "\x7b\"k1\":1,\"k2\":2,\"k3\":3\x7d",
          Arg.txt "k3", Arg.txt "k1", Arg.txt "k4"] =
        .ok (.txt (toj [JVal.int 3, JVal.int 1, JVal.null])) :=
  ⟨rfl, rfl,
    jdictvals_selected_keys "\x7b\"k1\":1,\"k2\":2,\"k3\":3\x7d"
      [("k1", JVal.int 1), ("k2", JVal.int 2), ("k3", JVal.int 3)]
      '\x7b' "\"k1\":1,\"k2\":2,\"k3\":3\x7d".data rfl (by decide) rfl
      [Arg.txt "k3", Arg.txt "k1", Arg.txt "k4"] (by simp)⟩

theorem regexParts_all_text : ∀ ss : List String,
    regexParts (ss.map JVal.str) = .ok (ss.map (fun s => "(?:" ++ s ++ ")"))
  | [] => rfl
  | s :: ss => by
    simp only [List.map_cons, regexParts, regexParts_all_text ss, Bind.bind, Except.bind,
      pure, Except.pure]

theorem regexParts_non_text : ∀ vs : List JVal,
    (∃ v ∈ vs, ∀ s, v ≠ JVal.str s) → ∃ e, regexParts vs = .error e := by
  intro vs h
  induction vs with
  | nil => simp at h
  | cons v vs ih =>
    obtain ⟨w, hw, hws⟩ := h
    rcases List.mem_cons.mp hw with rfl | hwtail
    · cases w with
      | str s => exact absurd rfl (hws s)
      | null => exact ⟨Err.typeError, rfl⟩
      | int m => exact ⟨Err.typeError, rfl⟩
      | arr xs => exact ⟨Err.typeError, rfl⟩
      | obj fs => exact ⟨Err.typeError, rfl⟩
    · cases v with
      | str s =>
        obtain ⟨e, he⟩ := ih ⟨w, hwtail, hws⟩
        exact ⟨e, by simp [regexParts, he, Bind.bind, Except.bind]⟩
      | null => exact ⟨Err.typeError, rfl⟩
      | int m => exact ⟨Err.typeError, rfl⟩
      | arr xs => exact ⟨Err.typeError, rfl⟩
      | obj fs => exact ⟨Err.typeError, rfl⟩

/-- C9: when the flat decoding of the arguments consists of text values
v1..vn, `jmergeregexp` returns `(?:v1)|(?:v2)|...|(?:vn)`; when any
decoded element is not text, the call fails with an error instead of
returning a result. -/
theorem jmergeregexp_text_only (args : List Arg) (vs : List JVal)
    (h : fromj args = .ok vs) :
    (∀ ss : List String, vs = ss.map JVal.str →
        jmergeregexp args =
          .ok (String.intercalate "|" (ss.map (fun s => "(?:" ++ s ++ ")")))) ∧
    ((∃ v ∈ vs, ∀ s, v ≠ JVal.str s) → ∃ e, jmergeregexp args = .error e) := by
  constructor
  · intro ss hss
    subst hss
    simp [jmergeregexp, h, regexParts_all_text, Bind.bind, Except.bind, pure, Except.pure]
  · intro hbad
    obtain ⟨e, he⟩ := regexParts_non_text vs hbad
    exact ⟨e, by simp [jmergeregexp, h, he, Bind.bind, Except.bind]⟩

/-- C9 (witness): the docstring example and a failing numeric element. -/
theorem jmergeregexp_text_only_witness :
    fromj [Arg.txt "[\"abc\", \"def\"]"] = .ok [JVal.str "abc", JVal.str "def"] ∧
      jmergeregexp [Arg.txt "[\"abc\", \"def\"]"] = .ok "(?:abc)|(?:def)" ∧
      fromj [Arg.txt "[1]"] = .ok [JVal.int 1] ∧
      (∃ e, jmergeregexp [Arg.txt "[1]"] = .error e) :=
  ⟨rfl,
    (jmergeregexp_text_only [Arg.txt "[\"abc\", \"def\"]"] [JVal.str "abc", JVal.str "def"]
        rfl).1 ["abc", "def"] rfl,
    rfl,
    (jmergeregexp_text_only [Arg.txt "[1]"] [JVal.int 1] rfl).2
      ⟨JVal.int 1, by simp, fun s h => JVal.noConfusion h⟩⟩

/-- C10: `jset` builds a Python set of the flat-decoded elements before
sorting; a decoded sequence element is unhashable, so its presence makes
the call raise instead of returning a pack, and a normal return implies
every decoded element was a scalar. -/
theorem jset_scalars_only (args : List Arg) (vs : List JVal)
    (h : fromj args = .ok vs) :
    ((∃ v ∈ vs, ∃ xs, v = JVal.arr xs) → ∃ e, jset args = .error e) ∧
    (∀ s, jset args = .ok s → ∀ v ∈ vs, isScalar v = true) := by
  constructor
  · intro hbad
    obtain ⟨v, hv, xs, rfl⟩ := hbad
    refine ⟨Err.typeError, ?_⟩
    have hany : vs.any (fun v => !isScalar v) = true :=
      List.any_eq_true.mpr ⟨JVal.arr xs, hv, rfl⟩
    simp [jset, h, hany, Bind.bind, Except.bind]
  · intro s hs v hv
    by_contra hns
    have hany : vs.any (fun v => !isScalar v) = true :=
      List.any_eq_true.mpr ⟨v, hv, by simp [hns]⟩
    simp [jset, h, hany, Bind.bind, Except.bind] at hs

/-- C10 (witness): a nested sequence element makes `jset` fail; the
all-scalar direction at a successful call. -/
theorem jset_scalars_only_witness :
    fromj [Arg.txt "[[1],2]"] = .ok [JVal.arr [JVal.int 1], JVal.int 2] ∧
      (∃ e, jset [Arg.txt "[[1],2]"] = .error e) :=
  ⟨rfl,
    (jset_scalars_only [Arg.txt "[[1],2]"] [JVal.arr [JVal.int 1], JVal.int 2] rfl).1
      ⟨JVal.arr [JVal.int 1], by simp, [JVal.int 1], rfl⟩⟩

/-- C5 (counterexample): the code checks the raw first and last characters
of each argument, without trimming: a leading space before an otherwise
well-formed object makes the argument contribute no keys, although the
claim's trimmed text begins with a brace and should contribute `a`.  The
output is the empty pack, so no enumeration order is involved: the chosen
admissible orders `pyKeys`/`pySet` are not consulted on this input. -/
theorem jdictkeys_no_trim_counterexample :
    jdictkeys pyKeys pySet [Arg.txt " \x7b\"a\":1\x7d"] = .ok "[]" ∧
      toj [JVal.str "a"] ≠ "[]" :=
  ⟨rfl, by decide⟩

theorem collectKeys_forall2 (ko : List (String × JVal) → List String)
    (hko : keyOrderOK ko) : ∀ (args : List Arg) (kss : List (List String)),
    List.Forall₂ contributes args kss →
    ∃ l, l.Perm kss.flatten ∧ collectKeys ko args = .ok l := by
  intro args kss h
  induction h with
  | nil => exact ⟨[], List.Perm.refl _, rfl⟩
  | cons hc hrest ih =>
    rename_i a ks as kss2
    obtain ⟨l, hlp, hlc⟩ := ih
    have hhead : ∃ k0, k0.Perm ks ∧ collectKeys1 ko a = .ok k0 := by
      rcases hc with ⟨s, fs, rfl, hb, hp, hkp⟩ | ⟨s, rfl, hne, hb, rfl⟩
      · cases hd : s.data with
        | nil => rw [hd] at hb; simp [bracedData] at hb
        | cons c cs =>
          refine ⟨ko fs, (hko fs).trans hkp.symm, ?_⟩
          rw [hd] at hb
          simp only [collectKeys1]
          rw [hd]
          simp only [hb, if_pos]
          rw [hp]
      · cases hd : s.data with
        | nil => exact absurd hd hne
        | cons c cs =>
          refine ⟨[], List.Perm.refl _, ?_⟩
          rw [hd] at hb
          simp only [collectKeys1]
          rw [hd]
          simp [hb]
    obtain ⟨k0, hk0p, hk0c⟩ := hhead
    refine ⟨k0 ++ l, ?_, ?_⟩
    · simpa [List.flatten_cons] using hk0p.append hlp
    · simp [collectKeys, hk0c, hlc, Bind.bind, Except.bind, pure, Except.pure]

/-- C5 (amended): `jdictkeys` collects keys only from arguments whose raw,
untrimmed text begins with a brace and ends with a brace.  For every
admissible dict-key and set enumeration order: a sole bare number yields
the empty pack, as does a sole nonempty non-braced text; a sole braced
object yields its keys in some order (a permutation of the mapping's
keys); with two or more arguments the result lists, once each and in no
order stronger than set semantics, exactly the keys the braced arguments
contribute (a numeric or empty-text argument then makes the call fail,
which the original claim does not allow). -/
theorem jdictkeys_amended (ko : List (String × JVal) → List String)
    (so : List String → List String) (hko : keyOrderOK ko) (hso : setOrderOK so) :
    (∀ n : Int, jdictkeys ko so [Arg.num n] = .ok (toj [])) ∧
    (∀ (s : String) (c0 : Char) (cs0 : List Char), s.data = c0 :: cs0 →
        bracedData (c0 :: cs0) = false → jdictkeys ko so [Arg.txt s] = .ok (toj [])) ∧
    (∀ (s : String) (fs : List (String × JVal)) (c0 : Char) (cs0 : List Char),
        s.data = c0 :: cs0 → bracedData (c0 :: cs0) = true →
        parseTop s = some (.obj fs) →
        ∃ ks : List String, ks.Perm ((dictOf fs).map Prod.fst) ∧
          jdictkeys ko so [Arg.txt s] = .ok (toj (ks.map JVal.str))) ∧
    (∀ (a1 a2 : Arg) (args : List Arg) (kss : List (List String)),
        List.Forall₂ contributes (a1 :: a2 :: args) kss →
        ∃ ks : List String, ks.Nodup ∧ (∀ k, k ∈ ks ↔ k ∈ kss.flatten) ∧
          jdictkeys ko so (a1 :: a2 :: args) = .ok (toj (ks.map JVal.str))) := by
  refine ⟨fun n => rfl, ?_, ?_, ?_⟩
  · intro s c0 cs0 hdata hb
    simp only [jdictkeys]
    rw [hdata]
    simp [hb]
  · intro s fs c0 cs0 hdata hb hp
    refine ⟨ko fs, hko fs, ?_⟩
    simp only [jdictkeys]
    rw [hdata]
    simp only [hb, if_pos]
    rw [hp]
  · intro a1 a2 args kss h
    obtain ⟨l, hlp, hlc⟩ := collectKeys_forall2 ko hko _ _ h
    refine ⟨so l, (hso l).1, ?_, ?_⟩
    · intro k
      rw [(hso l).2 k]
      exact hlp.mem_iff
    · simp [jdictkeys, hlc, Bind.bind, Except.bind, pure, Except.pure]

/-- C5 (witness): two braced object arguments under the concrete
admissible orders `pyKeys`/`pySet`; the result lists each contributed key
exactly once. -/
theorem jdictkeys_amended_witness :
    keyOrderOK pyKeys ∧ setOrderOK pySet ∧
    List.Forall₂ contributes [Arg.txt "\x7b\"a\":1\x7d", Arg.txt "\x7b\"a\":1,\"b\":2\x7d"]
        [["a"], ["a", "b"]] ∧
    ∃ ks : List String, ks.Nodup ∧ (∀ k, k ∈ ks ↔ k ∈ [["a"], ["a", "b"]].flatten) ∧
      jdictkeys pyKeys pySet
          [Arg.txt "\x7b\"a\":1\x7d", Arg.txt "\x7b\"a\":1,\"b\":2\x7d"] =
        .ok (toj (ks.map JVal.str)) := by
  have hko : keyOrderOK pyKeys := fun fs => List.Perm.refl _
  have hso : setOrderOK pySet := fun l => ⟨l.nodup_dedup, fun k => List.mem_dedup⟩
  have hf2 : List.Forall₂ contributes
      [Arg.txt "\x7b\"a\":1\x7d", Arg.txt "\x7b\"a\":1,\"b\":2\x7d"] [["a"], ["a", "b"]] :=
    List.Forall₂.cons
      (Or.inl ⟨"\x7b\"a\":1\x7d", [("a", JVal.int 1)], rfl, by decide, rfl,
        List.Perm.refl _⟩)
      (List.Forall₂.cons
        (Or.inl ⟨"\x7b\"a\":1,\"b\":2\x7d", [("a", JVal.int 1), ("b", JVal.int 2)],
          rfl, by decide, rfl, List.Perm.refl _⟩)
        List.Forall₂.nil)
  exact ⟨hko, hso, hf2,
    (jdictkeys_amended pyKeys pySet hko hso).2.2.2 _ _ [] [["a"], ["a", "b"]] hf2⟩

theorem tabEsc_no_tab : ∀ l : List Char, '\t' ∉ l → tabEsc l = l
  | [], _ => rfl
  | c :: cs, h => by
    simp only [tabEsc]
    rw [if_neg (by rintro rfl; exact h (List.mem_cons_self _ _)),
      tabEsc_no_tab cs (fun hm => h (List.mem_cons_of_mem c hm))]
    rfl

theorem tabSplit_no_tab : ∀ l : List Char, '\t' ∉ l → tabSplit l = [l]
  | [], _ => rfl
  | c :: cs, h => by
    simp only [tabSplit]
    rw [if_neg (by rintro rfl; exact h (List.mem_cons_self _ _)),
      tabSplit_no_tab cs (fun hm => h (List.mem_cons_of_mem c hm))]

theorem tabSplit_append : ∀ (p cs : List Char), '\t' ∉ p →
    tabSplit (p ++ '\t' :: cs) = p :: tabSplit cs
  | [], cs, _ => by simp [tabSplit]
  | c :: p, cs, h => by
    simp only [List.cons_append, tabSplit, List.append_eq]
    rw [if_neg (by rintro rfl; exact h (List.mem_cons_self _ _)),
      tabSplit_append p cs (fun hm => h (List.mem_cons_of_mem c hm))]

theorem tabJoin_split : ∀ parts : List (List Char), parts ≠ [] →
    (∀ p ∈ parts, '\t' ∉ p) → tabSplit (tabJoin parts) = parts
  | [], hne, _ => absurd rfl hne
  | [p], _, hall => by
    simp only [tabJoin]
    exact tabSplit_no_tab p (hall p (by simp))
  | p :: q :: ps, _, hall => by
    simp only [tabJoin]
    rw [tabSplit_append p _ (hall p (by simp)),
      tabJoin_split (q :: ps) (by simp) (fun x hx => hall x (List.mem_cons_of_mem p hx))]

/-- C8 (counterexample): the tabular round trip does not preserve textual
content for every sequence of scalar values.  The empty pack `[]` decodes
to no values, joins into the empty text, and comes back as the pack of one
empty text value (rendered bare as the empty string), not as the empty
pack `[]`. -/
theorem tabular_roundtrip_counterexample :
    j2t [Arg.txt "[]"] = .ok "" ∧ t2j [Arg.txt ""] = .ok "" ∧
      toj ([] : List JVal) = "[]" ∧ ("" : String) ≠ "[]" :=
  ⟨rfl, rfl, rfl, by decide⟩

/-- C8 (amended): `t2j(j2t('[1,2,3]'))` is the pack `["1","2","3"]` -
every field comes back as text and numeric typing is lost; in general, for
every argument whose flat decoding is a nonempty sequence of scalar values
none of whose textual renderings contains a tab, the tabular round trip
returns exactly those renderings as text values. -/
theorem tabular_roundtrip_amended :
    (j2t [Arg.txt "[1,2,3]"] = .ok "1\t2\t3" ∧
        t2j [Arg.txt "1\t2\t3"] = .ok "[\"1\",\"2\",\"3\"]") ∧
    (∀ (p : String) (vs : List JVal), fromj [Arg.txt p] = .ok vs → vs ≠ [] →
        (∀ v ∈ vs, isScalar v = true) →
        (∀ v ∈ vs, '\t' ∉ (pyStr v).data) →
        j2t [Arg.txt p] = .ok (String.mk (tabJoin (vs.map (fun v => (pyStr v).data)))) ∧
          t2j [Arg.txt (String.mk (tabJoin (vs.map (fun v => (pyStr v).data))))] =
            .ok (toj (vs.map (fun v => JVal.str (pyStr v))))) := by
  refine ⟨⟨rfl, rfl⟩, ?_⟩
  intro p vs h hne _hsc htab
  have hmapesc : vs.map (fun v => tabEsc (pyStr v).data) =
      vs.map (fun v => (pyStr v).data) := by
    apply List.map_congr_left
    intro v hv
    exact tabEsc_no_tab _ (htab v hv)
  constructor
  · simp [j2t, h, Bind.bind, Except.bind, pure, Except.pure, hmapesc]
  · have hsplit : tabSplit (tabJoin (vs.map (fun v => (pyStr v).data))) =
        vs.map (fun v => (pyStr v).data) := by
      apply tabJoin_split
      · simpa using hne
      · intro x hx
        obtain ⟨v, hv, rfl⟩ := List.mem_map.mp hx
        exact htab v hv
    simp only [t2j, List.mapM_cons, List.mapM_nil, Bind.bind, Except.bind, pure, Except.pure]
    rw [hsplit]
    simp only [List.flatten_cons, List.flatten_nil, List.append_nil, List.map_map]
    rfl

/-- C8 (witness): the amended general law at the concrete pack
`[1,2,3]`. -/
theorem tabular_roundtrip_witness :
    fromj [Arg.txt "[1,2,3]"] = .ok [JVal.int 1, JVal.int 2, JVal.int 3] ∧
      t2j [Arg.txt (String.mk (tabJoin
          ([JVal.int 1, JVal.int 2, JVal.int 3].map (fun v => (pyStr v).data))))] =
        .ok (toj ([JVal.int 1, JVal.int 2, JVal.int 3].map (fun v => JVal.str (pyStr v)))) :=
  ⟨rfl,
    (tabular_roundtrip_amended.2 "[1,2,3]" [JVal.int 1, JVal.int 2, JVal.int 3] rfl
      (by simp) (by decide) (by decide)).2⟩
